import Mathlib

/-!
# Waypoint content-resolution engine: a verification development

Shallow embedding of the Waypoint resolution engine (media-type classifier,
progress extractor, title extractor/cleaner, similarity scorer, metadata
cascade) into Lean 4, with theorems settling the specification claims.

Strings are modelled as `List Char`; the JavaScript regular expressions used
by the source are embedded via a small backtracking matcher (`RE`, `run`)
whose alternative order reproduces the leftmost / greedy / first-alternative
semantics of JS `RegExp` for the constructs the source uses.  Case mapping is
the ASCII mapping of `Char.toLower` / `Char.toUpper` (the inputs in question
are ASCII plus CJK characters, on which JS `toLowerCase` also acts as the
identity).
-/

set_option maxHeartbeats 1000000

namespace Waypoint

/-! ## Character classes (JS `\d`, `\s`, `\w`, `.`) -/

def isDigitB (c : Char) : Bool := decide ('0' ≤ c ∧ c ≤ '9')

def isWSB (c : Char) : Bool :=
  c.toNat == 32 || c.toNat == 9 || c.toNat == 10 || c.toNat == 13 ||
    c.toNat == 11 || c.toNat == 12

def isWordB (c : Char) : Bool :=
  isDigitB c || decide ('a' ≤ c ∧ c ≤ 'z') || decide ('A' ≤ c ∧ c ≤ 'Z') || c == '_'

def isDotB (c : Char) : Bool :=
  !(c == '\n' || c == '\r' || c.toNat == 0x2028 || c.toNat == 0x2029)

def isAlphaB (c : Char) : Bool :=
  decide ('a' ≤ c ∧ c ≤ 'z') || decide ('A' ≤ c ∧ c ≤ 'Z')

def strLow (l : List Char) : List Char := l.map Char.toLower

def strUp (l : List Char) : List Char := l.map Char.toUpper

/-- Substring test, the embedding of JS `String.prototype.includes`. -/
def prefixOfB : List Char → List Char → Bool
  | [], _ => true
  | _ :: _, [] => false
  | a :: as, b :: bs => a == b && prefixOfB as bs

def inclL (needle hay : List Char) : Bool :=
  prefixOfB needle hay ||
    match hay with
    | [] => false
    | _ :: t => inclL needle t

/-! ## Regex engine

A backtracking matcher returning the list of all successes in JS preference
order (greedy quantifiers longest-first, alternation left-first).  Quantifiers
are restricted to single-character classes, which covers every pattern in the
source.  `prev` is the character before the current position (`none` at the
absolute start), needed for `\b` and `^`. -/

/-- One success of a regex run: the character before the stop position,
the remaining input and the capture groups recorded during the run. -/
structure MRes where
  prev : Option Char
  rest : List Char
  caps : List (Nat × List Char)

inductive RE where
  | eps
  | cls (p : Char → Bool)
  | seq (a b : RE)
  | alt (a b : RE)
  | opt (a : RE)
  | starC (p : Char → Bool)
  | repC (p : Char → Bool) (max : Nat)
  | group (n : Nat) (a : RE)
  | nla (p : Char → Bool)
  | wordB
  | bos
  | eos

/-- Greedy `p*`: longest consumption first. -/
def starRun (p : Char → Bool) : Option Char → List Char → List MRes
  | prev, [] => [⟨prev, [], []⟩]
  | prev, c :: cs => (if p c then starRun p (some c) cs else []) ++ [⟨prev, c :: cs, []⟩]

/-- Greedy `p{0,max}`: longest consumption first. -/
def repRun (p : Char → Bool) : Nat → Option Char → List Char → List MRes
  | 0, prev, s => [⟨prev, s, []⟩]
  | _ + 1, prev, [] => [⟨prev, [], []⟩]
  | m + 1, prev, c :: cs => (if p c then repRun p m (some c) cs else []) ++ [⟨prev, c :: cs, []⟩]

def isWordO : Option Char → Bool
  | none => false
  | some c => isWordB c

def run : RE → Option Char → List Char → List MRes
  | .eps, prev, s => [⟨prev, s, []⟩]
  | .cls p, _, s =>
    match s with
    | [] => []
    | c :: cs => if p c then [⟨some c, cs, []⟩] else []
  | .seq a b, prev, s =>
    (run a prev s).flatMap fun r =>
      (run b r.prev r.rest).map fun r2 => ⟨r2.prev, r2.rest, r.caps ++ r2.caps⟩
  | .alt a b, prev, s => run a prev s ++ run b prev s
  | .opt a, prev, s => run a prev s ++ [⟨prev, s, []⟩]
  | .starC p, prev, s => starRun p prev s
  | .repC p m, prev, s => repRun p m prev s
  | .group n a, prev, s =>
    (run a prev s).map fun r =>
      ⟨r.prev, r.rest, r.caps ++ [(n, s.take (s.length - r.rest.length))]⟩
  | .nla p, prev, s =>
    match s with
    | [] => [⟨prev, [], []⟩]
    | c :: cs => if p c then [] else [⟨prev, c :: cs, []⟩]
  | .wordB, prev, s => if isWordO prev != isWordO s.head? then [⟨prev, s, []⟩] else []
  | .bos, prev, s => match prev with | none => [⟨none, s, []⟩] | some _ => []
  | .eos, prev, s => match s with | [] => [⟨prev, [], []⟩] | _ => []

/-- A leftmost match: text before it, the matched text, the text after it,
and the captures. -/
structure MFound where
  pre : List Char
  matched : List Char
  post : List Char
  caps : List (Nat × List Char)

def matchFirstAux (r : RE) : List Char → Option Char → List Char → Option MFound
  | pre, prev, s =>
    match (run r prev s).head? with
    | some res => some ⟨pre.reverse, s.take (s.length - res.rest.length), res.rest, res.caps⟩
    | none =>
      match s with
      | [] => none
      | c :: cs => matchFirstAux r (c :: pre) (some c) cs

/-- Leftmost match of `r` in `s` (the embedding of JS `String.prototype.match`
for a non-global regex). -/
def matchFirst (r : RE) (s : List Char) : Option MFound := matchFirstAux r [] none s

/-- The embedding of JS `RegExp.prototype.test`. -/
def reTest (r : RE) (s : List Char) : Bool := (matchFirst r s).isSome

/-- The embedding of JS `String.prototype.replace(re, replacement)` for a
non-global regex and the empty replacement string. -/
def stripFirst (r : RE) (s : List Char) : List Char :=
  match matchFirst r s with
  | some f => f.pre ++ f.post
  | none => s

def capsOf (r : RE) (s : List Char) : Option (List (Nat × List Char)) :=
  (matchFirst r s).map (·.caps)

/-! ## Pattern construction helpers -/

def rchar (c : Char) : RE := .cls (fun x => x == c)

/-- Case-insensitive literal character (the `i` flag). -/
def rcharCI (c : Char) : RE := .cls (fun x => x.toLower == c.toLower)

def rcat (l : List RE) : RE := l.foldr .seq .eps

def ralts : List RE → RE
  | [] => .cls (fun _ => false)
  | [r] => r
  | r :: rs => .alt r (ralts rs)

def rstr (w : String) : RE := rcat (w.data.map rchar)

def rstrCI (w : String) : RE := rcat (w.data.map rcharCI)

/-- `\d+` -/
def digits1 : RE := .seq (.cls isDigitB) (.starC isDigitB)

def plusC (p : Char → Bool) : RE := .seq (.cls p) (.starC p)

/-- `\d+(?:\.\d+)?` -/
def decNum : RE := .seq digits1 (.opt (.seq (rchar '.') digits1))

/-! ## Number parsing -/

def digitsToNat (l : List Char) : Nat := l.foldl (fun a c => a * 10 + (c.toNat - 48)) 0

/-- Model of JS `parseFloat` on the strings captured by the progress patterns:
leading digits, then an optional fractional part; trailing text is ignored and
a string with no leading digit gives `NaN` (modelled as `none`). -/
def parseDec (l : List Char) : Option ℚ :=
  let ds := l.takeWhile isDigitB
  if ds.isEmpty then none
  else
    match l.dropWhile isDigitB with
    | '.' :: r2 =>
      let fs := r2.takeWhile isDigitB
      if fs.isEmpty then some (digitsToNat ds : ℚ)
      else some (mkRat (digitsToNat ds * 10 ^ fs.length + digitsToNat fs) (10 ^ fs.length))
    | _ => some (digitsToNat ds : ℚ)

/-- Model of JS `parseInt(s, 10)` on captured digit strings. -/
def parseIntJS (l : List Char) : Option Nat :=
  let ds := l.takeWhile isDigitB
  if ds.isEmpty then none else some (digitsToNat ds)

/-! ## Data model (src/lib/types.ts) -/

/-- `export type MediaType = 'novel' | 'manga' | 'webcomic' | 'anime'` -/
inductive MediaType where
  | novel
  | manga
  | webcomic
  | anime
deriving DecidableEq, Repr

/-- The `{ chapter?: number; episode?: number }` result of progress
extraction. -/
structure ProgressMark where
  chapter : Option ℚ := none
  episode : Option ℚ := none
deriving DecidableEq, Repr

/-! ## Progress extraction (src/lib/types.ts lines 372-495) -/

/-- `[_\-\s]` -/
def sepEp (c : Char) : Bool := c == '_' || c == '-' || isWSB c

/-- `[_\-\.\s]` -/
def sepCh (c : Char) : Bool := c == '_' || c == '-' || c == '.' || isWSB c

/-- `EPISODE_PATTERNS`: the episode-number regexes for anime, in source
order. -/
def EPISODE_PATTERNS : List RE :=
  [ rcat [rstrCI "episode", .starC sepEp, .group 1 digits1],
    rcat [rstrCI "ep", .starC sepEp, .group 1 digits1],
    rcat [rcharCI 'e', .group 1 digits1, .nla isDigitB],
    rcat [.wordB, rcharCI 's', .group 1 digits1, rcharCI 'e', .group 2 digits1],
    rcat [.wordB, rstrCI "episode", .starC isWSB, .group 1 digits1],
    rcat [rchar '【', .group 1 digits1, rchar '】'],
    rcat [rchar '第', .group 1 digits1, rchar '話'],
    rcat [rstrCI "episode", .starC (fun c => !isDigitB c), .group 1 digits1] ]

/-- `CHAPTER_PATTERNS`: the chapter-number regexes for manga / webcomics /
novels, in source order. -/
def CHAPTER_PATTERNS : List RE :=
  [ rcat [rstrCI "chapter", .starC sepEp, .group 1 decNum],
    rcat [rstrCI "ch", .starC sepCh, .group 1 decNum],
    rcat [rstrCI "chap", .starC sepCh, .group 1 decNum],
    rcat [rcharCI 'c', .group 1 digits1, .nla isDigitB],
    rcat [ralts [.bos, rchar '/', rchar '-'], .group 1 decNum,
          ralts [rchar '/', .eos, rchar '-', rstr ".html"]],
    rcat [rchar '第', .group 1 digits1, rchar '章'],
    rcat [rchar '第', .group 1 digits1, rchar '话'],
    rcat [.cls (fun c => c == '[' || c == '('), .group 1 digits1,
          .cls (fun c => c == ']' || c == ')')],
    rcat [.cls isWSB, .group 1 digits1, ralts [.cls isWSB, .eos]] ]

/-- `const numStr = match[2] || match[1]` (a missing or empty group 2 falls
back to group 1). -/
def cap2or1 (caps : List (Nat × List Char)) : Option (List Char) :=
  match caps.lookup 2 with
  | some l => if l.isEmpty then caps.lookup 1 else some l
  | none => caps.lookup 1

/-- One pass of the pattern loop in `extractProgress`: first pattern whose
first match yields a capture parsing to a number in `(0, 10000)`. -/
def tryPats (pats : List RE) (s : List Char) : Option ℚ :=
  match pats with
  | [] => none
  | p :: rest =>
    match matchFirst p s with
    | some f =>
      match (cap2or1 f.caps).bind parseDec with
      | some num => if 0 < num ∧ num < 10000 then some num else tryPats rest s
      | none => tryPats rest s
    | none => tryPats rest s

/-- `return isAnime ? { episode: Math.floor(num) } : { chapter: num }` -/
def mkMark (isAnime : Bool) (num : ℚ) : ProgressMark :=
  if isAnime then { episode := some ((⌊num⌋ : ℤ) : ℚ) } else { chapter := some num }

/-- `/\/(\d+)(?:\/|$|\?)/` — the last-resort URL-path pattern. -/
def LAST_RESORT_PAT : RE := rcat [rchar '/', .group 1 digits1, ralts [rchar '/', .eos, rchar '?']]

/-- `isAnime ? EPISODE_PATTERNS : CHAPTER_PATTERNS` -/
def patternsFor : Bool → List RE
  | true => EPISODE_PATTERNS
  | false => CHAPTER_PATTERNS

/-- The body of `extractProgress`, over `isAnime := mediaType === 'anime'`:
category-specific patterns against the lowercased URL, then against the
lowercased title, then the last-resort URL-path number bounded below 5000. -/
def progressOf (isAnime : Bool) (url title : List Char) : ProgressMark :=
  let patterns := patternsFor isAnime
  match tryPats patterns (strLow url) with
  | some num => mkMark isAnime num
  | none =>
    match tryPats patterns (strLow title) with
    | some num => mkMark isAnime num
    | none =>
      match matchFirst LAST_RESORT_PAT url with
      | some f =>
        match (f.caps.lookup 1).bind parseIntJS with
        | some n =>
          if 0 < n ∧ n < 5000 then
            (if isAnime then { episode := some (n : ℚ) } else { chapter := some (n : ℚ) })
          else {}
        | none => {}
      | none => {}

/-- `extractProgress` (src/lib/types.ts lines 400-446). -/
def extractProgress (url title : String) (mediaType : MediaType) : ProgressMark :=
  progressOf (mediaType == MediaType.anime) url.data title.data

/-- A pattern of `extractProgressSimple` together with its JS source text
(the source inspects `pattern.source` to decide episode vs chapter). -/
structure SPat where
  re : RE
  src : String

/-- The `allPatterns` list of `extractProgressSimple`, in source order. -/
def SIMPLE_PATTERNS : List SPat :=
  [ ⟨rcat [rstrCI "chapter", .opt (.cls (fun c => c == '_' || c == '-')), .group 1 digits1],
      "chapter[_-]?(\\d+)"⟩,
    ⟨rcat [rstrCI "ch", .opt (.cls (fun c => c == '_' || c == '-')), .group 1 digits1],
      "ch[_-]?(\\d+)"⟩,
    ⟨rcat [rstrCI "episode", .opt (.cls (fun c => c == '_' || c == '-')), .group 1 digits1],
      "episode[_-]?(\\d+)"⟩,
    ⟨rcat [rstrCI "ep", .opt (.cls (fun c => c == '_' || c == '-')), .group 1 digits1],
      "ep[_-]?(\\d+)"⟩,
    ⟨rcat [rchar '/', .group 1 digits1, .opt (rchar '/'), .eos],
      "\\/(\\d+)\\/?$"⟩,
    ⟨rcat [rstrCI "chapter", .starC isWSB, .group 1 digits1],
      "chapter\\s*(\\d+)"⟩,
    ⟨rcat [rstrCI "ch", .opt (rchar '.'), .starC isWSB, .group 1 digits1],
      "ch\\.?\\s*(\\d+)"⟩,
    ⟨rcat [rstrCI "episode", .starC isWSB, .group 1 digits1],
      "episode\\s*(\\d+)"⟩,
    ⟨rcat [rstrCI "ep", .opt (rchar '.'), .starC isWSB, .group 1 digits1],
      "ep\\.?\\s*(\\d+)"⟩ ]

/-- `pattern.source.toLowerCase().includes('ep') ? { episode: num } :
{ chapter: num }` -/
def spatMark (p : SPat) (n : Nat) : ProgressMark :=
  if inclL "ep".data (strLow p.src.data) then { episode := some (n : ℚ) }
  else { chapter := some (n : ℚ) }

/-- One `url.match(pattern)` / `title.match(pattern)` clause of
`extractProgressSimple`. -/
def tryClause (s : List Char) (p : SPat) : Option ProgressMark :=
  match matchFirst p.re s with
  | some f =>
    match (f.caps.lookup 1).bind parseIntJS with
    | some n => if 0 < n ∧ n < 10000 then some (spatMark p n) else none
    | none => none
  | none => none

def simpleGo (url title : List Char) : List SPat → ProgressMark
  | [] => {}
  | p :: rest =>
    match tryClause url p with
    | some m => m
    | none =>
      match tryClause title p with
      | some m => m
      | none => simpleGo url title rest

/-- `extractProgressSimple` (src/lib/types.ts lines 452-495). -/
def extractProgressSimple (url title : String) : ProgressMark :=
  simpleGo url.data title.data SIMPLE_PATTERNS

/-! ## URL parsing -/

structure URLParts where
  host : List Char
  path : List Char
deriving DecidableEq, Repr

def splitScheme (acc : List Char) : List Char → Option (List Char × List Char)
  | ':' :: '/' :: '/' :: rest => some (acc.reverse, rest)
  | c :: rest => splitScheme (c :: acc) rest
  | [] => none

def schemeOk (l : List Char) : Bool :=
  match l with
  | [] => false
  | c :: rest =>
    isAlphaB c && rest.all (fun x => isAlphaB x || isDigitB x || x == '+' || x == '-' || x == '.')

/-- Models the WHATWG `new URL(...)` constructor for the absolute
`scheme://host/path` URLs this codebase deals with: the input must contain
`://` after a valid scheme and a nonempty host; the host is lowercased; the
path runs from the first `/` after the host up to `?` or `#` (defaulting to
`/`).  Userinfo, percent-encoding and punycode are outside the model; an
input that fails to parse is `none`, modelling the `TypeError` the
constructor throws. -/
def parseURL? (url : List Char) : Option URLParts :=
  match splitScheme [] url with
  | none => none
  | some (sch, rest) =>
    if schemeOk sch then
      let hostPort := rest.takeWhile (fun c => !(c == '/' || c == '?' || c == '#'))
      let host := hostPort.takeWhile (fun c => !(c == ':'))
      let afterHost := rest.dropWhile (fun c => !(c == '/' || c == '?' || c == '#'))
      let path :=
        match afterHost with
        | '/' :: _ => afterHost.takeWhile (fun c => !(c == '?' || c == '#'))
        | _ => ['/']
      if host.isEmpty then none else some ⟨strLow host, path⟩
    else none

/-- `getDomain` (src/lib/types.ts lines 98-104): hostname with a leading
`www.` stripped; an unparseable URL degrades to the empty string. -/
def getDomainL (url : List Char) : List Char :=
  match parseURL? url with
  | none => []
  | some u => if prefixOfB "www.".data u.host then u.host.drop 4 else u.host

def getDomain (url : String) : String := ⟨getDomainL url.data⟩

/-! ## Whitespace collapse and splitting -/

/-- Single pass splitting into maximal whitespace-separated tokens; `cur`
holds the reversed current token. -/
def tokensAux (cur : List Char) : List Char → List (List Char)
  | [] => if cur.isEmpty then [] else [cur.reverse]
  | c :: cs =>
    if isWSB c then
      if cur.isEmpty then tokensAux [] cs else cur.reverse :: tokensAux [] cs
    else tokensAux (c :: cur) cs

/-- The maximal whitespace-separated tokens of a string. -/
def tokens (s : List Char) : List (List Char) := tokensAux [] s

/-- The embedding of `.replace(/\s+/g, ' ').trim()`: runs of whitespace
collapse to single spaces, and leading/trailing whitespace is dropped. -/
def collapseWS (s : List Char) : List Char := List.intercalate [' '] (tokens s)

/-- JS `String.prototype.split(sep)` for a single-character separator
(keeps empty fields). -/
def splitOnChar (sep : Char) : List Char → List (List Char)
  | [] => [[]]
  | c :: cs =>
    if c == sep then [] :: splitOnChar sep cs
    else
      match splitOnChar sep cs with
      | w :: ws => (c :: w) :: ws
      | [] => [[c]]

def splitSp (s : List Char) : List (List Char) := splitOnChar ' ' s

/-! ## Title case (src/lib/utils.ts `toTitleCase`) -/

def minorWords : List String :=
  ["a", "an", "the", "and", "but", "or", "for", "nor", "on", "at", "to", "by", "of", "in"]

/-- `word.charAt(0).toUpperCase() + word.slice(1).toLowerCase()` -/
def upFirst : List Char → List Char
  | [] => []
  | c :: r => c.toUpper :: strLow r

def isMinor (w : List Char) : Bool := minorWords.any (fun m => m.data == strLow w)

def tcWord (i : Nat) (w : List Char) : List Char :=
  if i == 0 || !isMinor w then upFirst w else strLow w

def mapIdx' (f : Nat → List Char → List Char) : Nat → List (List Char) → List (List Char)
  | _, [] => []
  | i, w :: ws => f i w :: mapIdx' f (i + 1) ws

/-- `toTitleCase` (src/lib/utils.ts lines 132-145). -/
def toTitleCase (s : List Char) : List Char :=
  List.intercalate [' '] (mapIdx' tcWord 0 (splitSp s))

/-! ## Title cleanup patterns and cleaners (src/lib/utils.ts) -/

/-- `TITLE_CLEANUP_PATTERNS` (src/lib/utils.ts lines 94-104), in source
order; all case-insensitive. -/
def TITLE_CLEANUP_PATTERNS : List RE :=
  [ rcat [plusC isWSB, .cls (fun c => c == '-' || c == '–' || c == '—' || c == '|'),
          plusC isWSB, plusC isDotB, .eos],
    rcat [plusC isWSB, rstrCI "on", plusC isWSB, plusC (fun c => !isWSB c), rchar '.',
          ralts [rstrCI "com", rstrCI "net", rstrCI "org", rstrCI "io", rstrCI "to",
                 rstrCI "tv", rstrCI "me", rstrCI "cc"], .eos],
    rcat [plusC isWSB, ralts [rstrCI "read", rstrCI "watch"], plusC isWSB,
          ralts [rstrCI "online", rstrCI "free"], .starC isDotB, .eos],
    rcat [plusC isWSB, .opt (rcat [rstrCI "in", plusC isWSB]),
          ralts [rstrCI "english", rstrCI "eng"], plusC isWSB,
          ralts [rstrCI "online", rstrCI "free", rstrCI "sub", rstrCI "dub", rstrCI "raw"],
          .starC isDotB, .eos],
    rcat [plusC isWSB, ralts [rstrCI "online", rstrCI "free"], .starC isWSB,
          .opt (ralts [rstrCI "reading", rstrCI "streaming"]), .starC isDotB, .eos],
    rcat [plusC isWSB,
          ralts [rstrCI "chapter", rcat [rstrCI "ch", .opt (rchar '.')],
                 rstrCI "episode", rcat [rstrCI "ep", .opt (rchar '.')]],
          .starC isWSB, digits1, .starC isDotB, .eos],
    rcat [plusC isWSB, ralts [rstrCI "volume", rcat [rstrCI "vol", .opt (rchar '.')]],
          .starC isWSB, digits1, .starC isDotB, .eos],
    rcat [.starC isWSB, rchar '(', .starC (fun c => !(c == ')')),
          ralts [rstrCI "manga", rstrCI "anime", rstrCI "novel", rstrCI "webtoon",
                 rstrCI "manhwa", rstrCI "manhua"],
          .starC (fun c => !(c == ')')), rchar ')', .eos],
    rcat [plusC isWSB, ralts [rstrCI "manga", rstrCI "manhwa", rstrCI "manhua",
                              rstrCI "webtoon", rstrCI "novel", rstrCI "anime"], .eos] ]

/-- Sequentially `replace(pattern, '')` over a pattern list. -/
def stripAll (pats : List RE) (s : List Char) : List Char :=
  pats.foldl (fun acc p => stripFirst p acc) s

/-- `if (cleaned === cleaned.toLowerCase() || cleaned === cleaned.toUpperCase())
cleaned = toTitleCase(cleaned)` -/
def maybeTitleCase (s : List Char) : List Char :=
  if s = strLow s ∨ s = strUp s then toTitleCase s else s

/-- `cleanTitle` (src/lib/utils.ts lines 110-127): the display cleaner. -/
def cleanTitleL (title : List Char) : List Char :=
  maybeTitleCase (collapseWS (stripAll TITLE_CLEANUP_PATTERNS title))

def cleanTitle (title : String) : String := ⟨cleanTitleL title.data⟩

/-- `.replace(/[^\w\s]/g, ' ')` -/
def punctToSpace (l : List Char) : List Char :=
  l.map (fun c => if isWordB c || isWSB c then c else ' ')

/-- `normalizeTitle` (src/lib/utils.ts lines 152-167): the match-mode
normalizer. -/
def normalizeTitleL (title : List Char) : List Char :=
  collapseWS (punctToSpace (stripAll TITLE_CLEANUP_PATTERNS (strLow title)))

def normalizeTitle (title : String) : String := ⟨normalizeTitleL title.data⟩

/-! ## Similarity scorer (src/lib/utils.ts lines 173-213) -/

/-- The JS `Set` of whitespace-split words of length > 2. -/
def wordSet (l : List Char) : List (List Char) :=
  ((splitSp l).filter (fun w => 2 < w.length)).dedup

/-- `calculateTitleSimilarity` (src/lib/utils.ts lines 173-205).  The JS
quotient `x / y` is embedded as the exact rational `mkRat x y` (the
kernel-computable construction of the same value; see
`Rat.mkRat_eq_div`). -/
def calculateTitleSimilarity (t1 t2 : String) : ℚ :=
  let n1 := normalizeTitleL t1.data
  let n2 := normalizeTitleL t2.data
  if n1 = n2 then 1
  else if n1.isEmpty || n2.isEmpty then 0
  else if inclL n2 n1 || inclL n1 n2 then
    let shorter := if n1.length < n2.length then n1 else n2
    let longer := if n1.length < n2.length then n2 else n1
    mkRat shorter.length longer.length
  else
    let w1 := wordSet n1
    let w2 := wordSet n2
    if w1.isEmpty || w2.isEmpty then 0
    else
      let m := (w1.filter (fun w => w2.contains w)).length
      let u := (w1 ++ w2).dedup.length
      mkRat m u

/-- `isSameWork` (src/lib/utils.ts lines 211-213); `threshold` defaults to
0.6 at call sites. -/
def isSameWork (t1 t2 : String) (threshold : ℚ) : Bool :=
  decide (threshold ≤ calculateTitleSimilarity t1 t2)

/-! ## Title extraction (src/lib/types.ts lines 502-590) -/

/-- `TITLE_SUFFIX_PATTERNS` (src/lib/types.ts lines 502-515), in source
order. -/
def TITLE_SUFFIX_PATTERNS : List RE :=
  [ rcat [rchar ' ', .cls (fun c => c == '-' || c == '–' || c == '—' || c == '|' || c == ':'),
          rchar ' ', .repC isDotB 30, .eos],
    rcat [rchar ' ', rchar ':', rchar ':', rchar ' ', plusC isDotB, .eos],
    rcat [.starC isWSB, rchar '(', .repC (fun c => !(c == ')')) 20, rchar ')', .eos],
    rcat [.starC isWSB, rchar '【', plusC (fun c => !(c == '】')), rchar '】', .eos],
    rcat [rstrCI " - read ", plusC isDotB, .eos],
    rcat [rstrCI " chapter ", digits1, .starC isDotB, .eos],
    rcat [rstrCI " episode ", digits1, .starC isDotB, .eos],
    rcat [rstrCI " ch", rchar '.', .starC isWSB, digits1, .starC isDotB, .eos],
    rcat [rstrCI " ep", rchar '.', .starC isWSB, digits1, .starC isDotB, .eos],
    rcat [rchar ' ', rchar '#', digits1, .starC isDotB, .eos],
    rcat [.starC isWSB, rchar '-', .starC isWSB, rstrCI "chapter", .starC isWSB, digits1],
    rcat [.starC isWSB, rchar '-', .starC isWSB, rstrCI "episode", .starC isWSB, digits1] ]

/-- `TITLE_PREFIX_PATTERNS` (src/lib/types.ts lines 518-524), in source
order. -/
def TITLE_PREFIX_PATTERNS : List RE :=
  [ rcat [.bos, rstrCI "read", plusC isWSB],
    rcat [.bos, rstrCI "watch", plusC isWSB],
    rcat [.bos, rstrCI "stream", plusC isWSB],
    rcat [.bos, rstrCI "chapter", .starC isWSB, digits1, .starC isWSB,
          .cls (fun c => c == '-' || c == '–' || c == ':'), .starC isWSB],
    rcat [.bos, rstrCI "episode", .starC isWSB, digits1, .starC isWSB,
          .cls (fun c => c == '-' || c == '–' || c == ':'), .starC isWSB] ]

/-- `/^(home|index|page|read|watch|chapter|episode)$/i` -/
def PLACEHOLDER_PAT : RE :=
  rcat [.bos, .group 1 (ralts [rstrCI "home", rstrCI "index", rstrCI "page", rstrCI "read",
                               rstrCI "watch", rstrCI "chapter", rstrCI "episode"]), .eos]

/-- `/\.(html?|php|aspx?)$/i` -/
def EXT_PAT : RE :=
  rcat [rchar '.',
        .group 1 (ralts [rcat [rstrCI "htm", .opt (rcharCI 'l')], rstrCI "php",
                         rcat [rstrCI "asp", .opt (rcharCI 'x')]]), .eos]

def skipSegments : List String :=
  ["manga", "comic", "anime", "novel", "read", "watch", "chapter", "episode", "series", "title"]

/-- `.replace(/[-_]/g, ' ')` -/
def dashToSpace (l : List Char) : List Char :=
  l.map (fun c => if c == '-' || c == '_' then ' ' else c)

/-- `.replace(/\b\w/g, (c) => c.toUpperCase())`: uppercase every word
character preceded by a non-word character (or the start). -/
def upInitials : Option Char → List Char → List Char
  | _, [] => []
  | prev, c :: rest =>
    (if isWordB c && !isWordO prev then c.toUpper else c) :: upInitials (some c) rest

/-- The path-segment loop of `extractTitleFromUrl`. -/
def titleFromParts : List (List Char) → List Char
  | [] => []
  | part :: rest =>
    if part.all isDigitB || skipSegments.any (fun s => s.data == strLow part) then
      titleFromParts rest
    else
      let cleaned := upInitials none (stripFirst EXT_PAT (dashToSpace part))
      if 3 ≤ cleaned.length then cleaned else titleFromParts rest

/-- `extractTitleFromUrl` (src/lib/types.ts lines 559-590): an unparseable
URL degrades to the empty string. -/
def extractTitleFromUrlL (url : List Char) : List Char :=
  match parseURL? url with
  | none => []
  | some u => titleFromParts ((splitOnChar '/' u.path).filter (fun p => !p.isEmpty))

def extractTitleFromUrl (url : String) : String := ⟨extractTitleFromUrlL url.data⟩

/-- The suffix/prefix stripping and whitespace cleanup of `extractTitle`,
before the degenerate-title check. -/
def cleanPageTitleL (pageTitle : List Char) : List Char :=
  collapseWS (stripAll TITLE_PREFIX_PATTERNS (stripAll TITLE_SUFFIX_PATTERNS pageTitle))

def cleanPageTitle (pageTitle : String) : String := ⟨cleanPageTitleL pageTitle.data⟩

/-- `extractTitle` (src/lib/types.ts lines 529-554). -/
def extractTitleL (pageTitle url : List Char) : List Char :=
  let t := cleanPageTitleL pageTitle
  let t2 :=
    if t.length < 3 || reTest PLACEHOLDER_PAT t then
      let urlTitle := extractTitleFromUrlL url
      if !urlTitle.isEmpty && t.length < urlTitle.length then urlTitle else t
    else t
  if t2.isEmpty then "Untitled".data else t2

def extractTitle (pageTitle url : String) : String := ⟨extractTitleL pageTitle.data url.data⟩

/-! ## Classifier lexicons (src/lib/types.ts lines 110-288) -/

def ANIME_KEYWORDS : List String :=
  [ "anime", "episode", "episodes", "streaming", "subbed", "dubbed",
    "sub", "dub", "ova", "ona", "simulcast", "season", "seasons",
    "watch online", "stream", "video player", "autoplay next",
    "opening", "ending", "op", "ed", "filler", "filler list", "canon",
    "voice actor", "seiyuu", "studio", "animation studio",
    "アニメ", "エピソード", "話", "期", "シーズン",
    "1080p", "720p", "480p", "bluray", "bd", "dvd", "raw",
    "crunchyroll", "funimation", "hidive", "netflix anime", "animelab" ]

def MANGA_KEYWORDS : List String :=
  [ "manga", "mangaka", "read manga", "manga reader", "manga scan",
    "shonen", "shounen", "shojo", "shoujo", "seinen", "josei", "kodomo",
    "oneshot", "one-shot", "tankoubon", "tankobon", "volume",
    "jump", "shonen jump", "weekly shonen", "magazine", "viz",
    "kodansha", "shueisha", "shogakukan", "square enix",
    "japanese", "japan", "jp",
    "マンガ", "漫画", "少年", "少女", "青年", "女性",
    "raw", "scanlation", "scanslation", "fan translation",
    "right to left", "rtl" ]

def WEBCOMIC_KEYWORDS : List String :=
  [ "manhwa", "manhua", "webtoon", "webcomic", "web comic", "webcomics",
    "webtoons", "toon", "comic", "comics",
    "korean", "chinese", "korea", "china", "kr", "cn",
    "tapas", "tappytoon", "lezhin", "toomics", "manta", "pocket comics",
    "line webtoon", "naver", "kakao", "daum", "kuaikan", "bilibili comics",
    "vertical scroll", "long strip", "full color", "full colour", "colored",
    "scroll down", "infinite scroll",
    "웹툰", "만화", "네이버", "카카오",
    "漫画网", "动漫", "国漫", "漫画屋",
    "cultivation", "regression", "reincarnation", "system", "hunter",
    "tower", "dungeon", "awakening", "martial arts", "murim" ]

def NOVEL_KEYWORDS : List String :=
  [ "novel", "light novel", "lightnovel", "web novel", "webnovel",
    "ln", "wn", "fiction", "story", "stories", "chapter", "chapters",
    "fanfiction", "fanfic", "fan fiction", "fan fic", "fic",
    "wuxia", "xianxia", "xuanhuan", "cultivation", "isekai", "litrpg",
    "lit rpg", "progression", "progression fantasy", "gamelit",
    "harem", "romance", "fantasy", "sci-fi", "slice of life",
    "royalroad", "scribblehub", "wattpad", "ao3", "archiveofourown",
    "webnovel", "qidian", "起点",
    "word count", "pages", "reading time", "author note",
    "ライトノベル", "小説", "なろう", "syosetu",
    "小说", "轻小说", "网文",
    "volume", "vol", "book", "arc", "part", "prologue", "epilogue",
    "original", "original fiction", "oc", "original character" ]

def ANIME_SITES : List String :=
  [ "crunchyroll.com", "funimation.com", "hidive.com", "vrv.co",
    "wakanim.tv", "animelab.com", "animax.com",
    "netflix.com/browse/genre/7424", "amazon.com/anime",
    "myanimelist.net", "anilist.co", "kitsu.io", "anime-planet.com",
    "anidb.net", "annict.com", "annict.jp", "livechart.me",
    "9anime", "gogoanime", "animixplay", "zoro.to", "aniwatch",
    "animesuge", "animepahe", "twist.moe", "animekisa", "animedao",
    "animefrenzy", "animeowl", "animesaturn", "animeflv",
    "jkanime", "monoschinos", "tioanime", "animeyt",
    "kayoanime", "animension", "animebee", "gogoanimes",
    "animeonsen", "4anime", "animekayo", "animeheaven",
    "aniwatcher", "animevibe", "ryuanime", "dubbedanime",
    "watchcartoononline", "kimcartoon" ]

def MANGA_SITES : List String :=
  [ "mangadex.org", "mangaplus.shueisha.co.jp", "viz.com",
    "kodansha.us", "manga.club", "comikey.com", "azuki.co",
    "inkr.com", "coolmic.me", "mangamo.com", "shonenjump.com",
    "mangasee123.com", "manga4life.com", "mangareader.to", "mangakakalot.com",
    "mangakatana.com", "mangapill.com", "mangahub.io", "mangapark.to",
    "mangafox.me", "mangahere.cc", "mangaeden.com", "mangafreak.me",
    "mangaowl.net", "mangairo.com", "mangabat.com", "manganelo.com",
    "mangaclash.com", "mangajar.com", "readmng.com", "mangadoom.co",
    "mangahasu.se", "rawdevart.com", "mangaraw.org", "mangarawjp.com",
    "rawkuma.com", "klmanga.com", "manga1000.com", "manga1001.com" ]

def WEBCOMIC_SITES : List String :=
  [ "webtoons.com", "webtoon.xyz", "tapas.io", "tappytoon.com",
    "lezhin.com", "lezhincomics.com", "toomics.com", "manta.net",
    "netcomics.com", "pocketcomics.com", "lehzin.com", "bomtoon.com",
    "mrblue.com", "kakaopage.com", "naver.com/webtoon",
    "kuaikanmanhua.com", "bilibili.com/manga", "dmzj.com", "manhuagui.com",
    "ac.qq.com", "u17.com", "dongmanmanhua.cn", "webcomicsapp.com",
    "asurascans.com", "asuracomic.net", "asuratoon.com",
    "reaperscans.com", "reapersans.com",
    "flamecomics.com", "flamescans.org",
    "luminousscans.com", "luminousscans.net",
    "manhuascan.io", "manhuaus.com", "manhuaplus.com",
    "manhwatop.com", "manhwa18.com", "manhwaclan.com",
    "zinmanga.com", "mangatx.com", "manhwabuddy.com",
    "resetscans.com", "hivetoon.com", "infernalvoidscans.com",
    "nitroscans.com", "nightscans.net", "harmonyscan.com",
    "immortalupdates.com", "cosmic-scans.com", "astrascans.com",
    "rizzfables.com", "arvenscans.com", "skscans.com",
    "bato.to", "batotoo.com", "comick.io", "comick.fun",
    "mangagg.com", "toonily.com", "manhwax.com", "manhuafast.com",
    "1stkissmanga.io", "1stkissmanga.me", "manhwa-freak.com" ]

def NOVEL_SITES : List String :=
  [ "royalroad.com", "scribblehub.com", "wattpad.com",
    "fictionpress.com", "penana.com", "inkitt.com", "tapas.io/novels",
    "honeyfeed.fm", "webnovel.com", "neovel.io", "moonquill.com",
    "archiveofourown.org", "fanfiction.net", "quotev.com",
    "asianfanfics.com", "spiritfanfiction.com",
    "wuxiaworld.com", "novelfull.com", "lightnovelpub.com",
    "novelupdates.com", "novelbin.com", "novelhall.com",
    "readlightnovel.org", "boxnovel.com", "noveltop.com",
    "wnmtl.org", "wuxiaworld.site", "novelsemperor.com",
    "wuxiap.com", "ranobes.net", "freewebnovel.com",
    "lightnovelreader.org", "lightnovelsonl.com", "pandanovel.com",
    "69shu.com", "shu69.com", "qidian.com", "jjwxc.net",
    "syosetu.com", "kakuyomu.jp", "j-novel.club", "yenpress.com",
    "novelupdates.com", "lndb.info" ]

/-! ## Signal classifier (src/lib/types.ts lines 297-366) -/

/-- The keyword-scan score: each keyword found in the combined text adds 2
points if its length exceeds 4 and 1 point otherwise. -/
def kwScore (kws : List String) (allText : List Char) : Nat :=
  kws.foldl (fun acc kw => if inclL kw.data allText then
    acc + (if 4 < kw.length then 2 else 1) else acc) 0

/-- The known-site score: each site matched by the domain or the lowercased
URL adds a flat 50. -/
def siteScore (sites : List String) (domain urlLower : List Char) : Nat :=
  sites.foldl (fun acc site =>
    if inclL site.data domain || inclL site.data urlLower then acc + 50 else acc) 0

/-- The combined `url + ' ' + title + ' ' + content` lowercased blob. -/
def allTextOf (url title content : String) : List Char :=
  strLow url.data ++ ' ' :: strLow title.data ++ ' ' :: strLow content.data

/-- The per-category total of `detectMediaType`'s `keywordScores` after both
the keyword scan and the known-site boost. -/
def categoryScore (url title content : String) : MediaType → Nat :=
  fun t =>
    let allText := allTextOf url title content
    let domain := getDomainL url.data
    let urlLower := strLow url.data
    match t with
    | .anime => kwScore ANIME_KEYWORDS allText + siteScore ANIME_SITES domain urlLower
    | .manga => kwScore MANGA_KEYWORDS allText + siteScore MANGA_SITES domain urlLower
    | .webcomic => kwScore WEBCOMIC_KEYWORDS allText + siteScore WEBCOMIC_SITES domain urlLower
    | .novel => kwScore NOVEL_KEYWORDS allText + siteScore NOVEL_SITES domain urlLower

/-- The `maxScore / detected` selection loop over `Object.entries`, whose
iteration order is the insertion order anime, manga, webcomic, novel;
`detected` starts at the `'manga'` fallback and is replaced only on a strict
improvement. -/
def pickMax (a m w n : Nat) : MediaType :=
  (([(MediaType.anime, a), (MediaType.manga, m), (MediaType.webcomic, w),
     (MediaType.novel, n)]).foldl
    (fun acc e => if acc.1 < e.2 then (e.2, e.1) else acc) ((0 : Nat), MediaType.manga)).2

/-- `detectMediaType` (src/lib/types.ts lines 297-366). -/
def detectMediaType (url title pageContent : String) : MediaType :=
  pickMax (categoryScore url title pageContent .anime)
          (categoryScore url title pageContent .manga)
          (categoryScore url title pageContent .webcomic)
          (categoryScore url title pageContent .novel)

/-! ## Metadata resolver (src/lib metadata module, lines 678-1374)

The network calls themselves cannot be embedded; each adapter's pure
candidate-selection core is embedded over the decoded response, and the
cascade is embedded over the adapter functions, so that "the adapter returned
no match" (which in the source also covers fetch failures and non-OK HTTP
statuses) is `none`. -/

inductive MetadataSource where
  | anilist
  | mal
  | mangadex
  | openlibrary
deriving DecidableEq, Repr

/-- `MediaMetadata` -/
structure MediaMetadata where
  id : String
  title : String
  thumbnailUrl : String
  source : MetadataSource
deriving DecidableEq, Repr

/-- `const MIN_MATCH_THRESHOLD = 0.7` (written `mkRat 7 10 = 7/10` to stay
kernel-computable). -/
def MIN_MATCH_THRESHOLD : ℚ := mkRat 7 10

/-- One decoded AniList media record: the three localized titles, the
synonyms, and the two cover-image sizes. -/
structure AniMedia where
  mid : Nat
  titleEnglish : Option String
  titleRomaji : Option String
  titleNative : Option String
  synonyms : List String
  coverLarge : Option String
  coverMedium : Option String
deriving DecidableEq, Repr

/-- `[english, romaji, native, ...synonyms].filter(t => typeof t === 'string'
&& t.length > 0)` -/
def allTitlesOf (m : AniMedia) : List String :=
  (([m.titleEnglish, m.titleRomaji, m.titleNative].filterMap id) ++ m.synonyms).filter
    (fun t => 0 < t.length)

/-- JS `a || b || c` over optional strings (empty strings are falsy). -/
def firstTruthy (l : List (Option String)) : String :=
  match l with
  | [] => ""
  | o :: rest =>
    match o with
    | some s => if 0 < s.length then s else firstTruthy rest
    | none => firstTruthy rest

/-- The per-candidate inner loop: the best similarity score over all title
variants (starting from 0), together with the best-scoring variant text
(starting from `english || romaji || native`). -/
def candScore (input : String) (m : AniMedia) : ℚ × String :=
  (allTitlesOf m).foldl
    (fun acc t =>
      let s := calculateTitleSimilarity input t
      if acc.1 < s then (s, t) else acc)
    (0, firstTruthy [m.titleEnglish, m.titleRomaji, m.titleNative])

/-- `if (!bestMatch || bestTitleScore > bestMatch.score) bestMatch = ...`:
keep the strictly best candidate seen so far. -/
def updSel (input : String) (best : Option (AniMedia × ℚ × String)) (m : AniMedia) :
    Option (AniMedia × ℚ × String) :=
  match best with
  | none => some (m, (candScore input m).1, (candScore input m).2)
  | some b =>
    if b.2.1 < (candScore input m).1 then some (m, (candScore input m).1, (candScore input m).2)
    else some b

/-- The candidate-selection loop of `searchAniList`: keep the strictly best
candidate seen so far and break as soon as a candidate's score reaches 0.95
(written `mkRat 19 20`). -/
def searchSelect (input : String) : Option (AniMedia × ℚ × String) → List AniMedia →
    Option (AniMedia × ℚ × String)
  | best, [] => best
  | best, m :: rest =>
    if mkRat 19 20 ≤ (candScore input m).1 then updSel input best m
    else searchSelect input (updSel input best m) rest

/-- `media.coverImage.large || media.coverImage.medium` -/
def coverOf (m : AniMedia) : String := firstTruthy [m.coverLarge, m.coverMedium]

/-- The pure core of `searchAniList` (src/lib metadata module, lines
714-820), applied to the decoded candidate list of the AniList response: the
best-scoring candidate is accepted only at or above `MIN_MATCH_THRESHOLD`. -/
def searchAniListCore (input : String) (mediaList : List AniMedia) : Option MediaMetadata :=
  match searchSelect input none mediaList with
  | none => none
  | some (m, score, titleText) =>
    if score < MIN_MATCH_THRESHOLD then none
    else some ⟨toString m.mid, titleText, coverOf m, .anilist⟩

/-- The four catalog adapters, as functions from the (already normalized)
title and the media type to an optional result; a `none` models "no match",
which in the source also covers fetch failures and non-success HTTP
statuses.  MangaDex and Open Library ignore the media type, as in the
strategy table's wrapper lambdas. -/
structure Adapters where
  aniList : String → MediaType → Option MediaMetadata
  jikan : String → MediaType → Option MediaMetadata
  mangaDex : String → Option MediaMetadata
  openLibrary : String → Option MediaMetadata

structure SearchConfig where
  primary : String → MediaType → Option MediaMetadata
  fallbacks : List (String → MediaType → Option MediaMetadata)

/-- `SEARCH_STRATEGIES` (src/lib metadata module, lines 1277-1294). -/
def SEARCH_STRATEGIES (A : Adapters) : MediaType → SearchConfig
  | .anime => ⟨A.aniList, [A.jikan]⟩
  | .manga => ⟨A.aniList, [A.jikan, fun title _ => A.mangaDex title]⟩
  | .webcomic => ⟨fun title _ => A.mangaDex title, [fun title _ => A.aniList title .manga]⟩
  | .novel => ⟨fun title _ => A.openLibrary title, []⟩

def firstSome : List (Option MediaMetadata) → Option MediaMetadata
  | [] => none
  | o :: rest =>
    match o with
    | some r => some r
    | none => firstSome rest

/-- `searchMetadata` (src/lib metadata module, lines 1300-1325): normalize
the title, try the primary adapter, then the fallbacks in order; `null` when
every source fails. -/
def searchMetadata (A : Adapters) (title : String) (type' : MediaType) : Option MediaMetadata :=
  let strategy := SEARCH_STRATEGIES A type'
  let ct := normalizeTitle title
  match strategy.primary ct type' with
  | some r => some r
  | none => firstSome (strategy.fallbacks.map (fun f => f ct type'))

/-! ## Supporting lemmas: value range of the progress-pattern loop -/

theorem mem_of_head? {A : Type} {l : List A} {a : A} (h : l.head? = some a) : a ∈ l := by
  cases l with
  | nil => simp at h
  | cons x xs =>
    simp at h
    subst h
    exact List.mem_cons_self _ _

theorem lookup_mem {n : Nat} {v : List Char} :
    ∀ {l : List (Nat × List Char)}, l.lookup n = some v → (n, v) ∈ l := by
  intro l h
  induction l with
  | nil => simp [List.lookup] at h
  | cons p rest ih =>
    rcases p with ⟨a, b⟩
    rw [List.lookup] at h
    split at h
    · rename_i hbeq
      injection h with h2
      subst h2
      have hna : n = a := eq_of_beq hbeq
      subst hna
      exact List.mem_cons_self _ _
    · exact List.mem_cons_of_mem _ (ih h)

theorem tryPats_range {pats : List RE} {s : List Char} {q : ℚ}
    (h : tryPats pats s = some q) : 0 < q ∧ q < 10000 := by
  induction pats with
  | nil => simp [tryPats] at h
  | cons p rest ih =>
    rw [tryPats] at h
    split at h
    · split at h
      · split at h
        · rename_i hguard
          injection h with h2
          subst h2
          exact hguard
        · exact ih h
      · exact ih h
    · exact ih h

/-! ## Supporting lemmas: captures of digit-only groups are digit strings -/

/-- Every capture group of the regex has `\d+` as its body. -/
inductive GroupsDig : RE → Prop
  | eps : GroupsDig .eps
  | cls (p) : GroupsDig (.cls p)
  | seq {a b} : GroupsDig a → GroupsDig b → GroupsDig (.seq a b)
  | alt {a b} : GroupsDig a → GroupsDig b → GroupsDig (.alt a b)
  | opt {a} : GroupsDig a → GroupsDig (.opt a)
  | starC (p) : GroupsDig (.starC p)
  | repC (p m) : GroupsDig (.repC p m)
  | group (n) : GroupsDig (.group n digits1)
  | nla (p) : GroupsDig (.nla p)
  | wordB : GroupsDig .wordB
  | bos : GroupsDig .bos
  | eos : GroupsDig .eos

theorem starRun_spec (p : Char → Bool) :
    ∀ (prev : Option Char) (s : List Char), ∀ res ∈ starRun p prev s,
      res.caps = [] ∧ ∃ t, s = t ++ res.rest ∧ ∀ c ∈ t, p c := by
  intro prev s
  induction s generalizing prev with
  | nil =>
    intro res h
    simp [starRun] at h
    subst h
    exact ⟨rfl, [], by simp⟩
  | cons c cs ih =>
    intro res h
    simp only [starRun] at h
    rcases List.mem_append.1 h with h1 | h2
    · by_cases hc : p c
      · rw [if_pos hc] at h1
        obtain ⟨hcaps, t, ht, hall⟩ := ih (some c) res h1
        refine ⟨hcaps, c :: t, by simp [ht], ?_⟩
        intro x hx
        rcases List.mem_cons.1 hx with rfl | hx
        · exact hc
        · exact hall x hx
      · rw [if_neg hc] at h1
        simp at h1
    · simp at h2
      subst h2
      exact ⟨rfl, [], by simp⟩

theorem starRun_caps (p : Char → Bool) (prev : Option Char) (s : List Char) :
    ∀ res ∈ starRun p prev s, res.caps = [] :=
  fun res h => (starRun_spec p prev s res h).1

theorem run_digits1_spec :
    ∀ (prev : Option Char) (s : List Char), ∀ res ∈ run digits1 prev s,
      res.caps = [] ∧ ∃ t, s = t ++ res.rest ∧ ∀ c ∈ t, isDigitB c := by
  intro prev s res h
  simp only [digits1, run] at h
  simp only [List.mem_flatMap, List.mem_map] at h
  obtain ⟨r1, hr1, r2, hr2, rfl⟩ := h
  rcases s with _ | ⟨c, cs⟩
  · simp at hr1
  · by_cases hc : isDigitB c
    · simp [hc] at hr1
      subst hr1
      obtain ⟨hcaps2, t, ht, hall⟩ := starRun_spec isDigitB (some c) cs r2 hr2
      refine ⟨by simp [hcaps2], c :: t, by simp [ht], ?_⟩
      intro x hx
      rcases List.mem_cons.1 hx with rfl | hx
      · exact hc
      · exact hall x hx
    · simp [hc] at hr1

theorem run_caps_digits :
    ∀ (r : RE), GroupsDig r → ∀ (prev : Option Char) (s : List Char), ∀ res ∈ run r prev s,
      ∀ pr ∈ res.caps, ∀ c ∈ pr.2, isDigitB c := by
  intro r hg
  induction hg with
  | eps =>
    intro prev s res h
    simp only [run] at h
    simp at h
    subst h
    simp
  | cls p =>
    intro prev s res h
    rcases s with _ | ⟨c, cs⟩
    · simp [run] at h
    · simp only [run] at h
      by_cases hc : p c
      · rw [if_pos hc] at h
        simp at h
        subst h
        simp
      · rw [if_neg hc] at h
        simp at h
  | seq ha hb iha ihb =>
    intro prev s res h
    simp only [run, List.mem_flatMap, List.mem_map] at h
    obtain ⟨r1, hr1, r2, hr2, rfl⟩ := h
    intro pr hpr
    rcases List.mem_append.1 hpr with h1 | h2
    · exact iha prev s r1 hr1 pr h1
    · exact ihb r1.prev r1.rest r2 hr2 pr h2
  | alt ha hb iha ihb =>
    intro prev s res h
    simp only [run] at h
    rcases List.mem_append.1 h with h1 | h2
    · exact iha prev s res h1
    · exact ihb prev s res h2
  | opt ha iha =>
    intro prev s res h
    simp only [run] at h
    rcases List.mem_append.1 h with h1 | h2
    · exact iha prev s res h1
    · simp at h2
      subst h2
      simp
  | starC p =>
    intro prev s res h
    simp only [run] at h
    rw [starRun_caps p prev s res h]
    simp
  | repC p m =>
    intro prev s res h
    simp only [run] at h
    induction m generalizing prev s with
    | zero =>
      simp [repRun] at h
      subst h
      simp
    | succ k ihk =>
      rcases s with _ | ⟨c, cs⟩
      · simp [repRun] at h
        subst h
        simp
      · simp only [repRun] at h
        rcases List.mem_append.1 h with h1 | h2
        · by_cases hc : p c
          · rw [if_pos hc] at h1
            exact ihk (some c) cs h1
          · rw [if_neg hc] at h1
            simp at h1
        · simp at h2
          subst h2
          simp
  | group n =>
    intro prev s res h
    simp only [run, List.mem_map] at h
    obtain ⟨r1, hr1, rfl⟩ := h
    obtain ⟨hcaps, t, ht, hall⟩ := run_digits1_spec prev s r1 hr1
    intro pr hpr
    rw [hcaps] at hpr
    simp at hpr
    subst hpr
    intro c hc
    have htake : s.take (s.length - r1.rest.length) = t := by
      rw [ht]
      simp
    rw [htake] at hc
    exact hall c hc
  | nla p =>
    intro prev s res h
    rcases s with _ | ⟨c, cs⟩
    · simp only [run] at h
      simp at h
      subst h
      simp
    · simp only [run] at h
      by_cases hc : p c
      · rw [if_pos hc] at h
        simp at h
      · rw [if_neg hc] at h
        simp at h
        subst h
        simp
  | wordB =>
    intro prev s res h
    simp only [run] at h
    by_cases hb : isWordO prev != isWordO s.head?
    · rw [if_pos hb] at h
      simp at h
      subst h
      simp
    · rw [if_neg hb] at h
      simp at h
  | bos =>
    intro prev s res h
    rcases prev with _ | c
    · simp only [run] at h
      simp at h
      subst h
      simp
    · simp [run] at h
  | eos =>
    intro prev s res h
    rcases s with _ | ⟨c, cs⟩
    · simp only [run] at h
      simp at h
      subst h
      simp
    · simp [run] at h

theorem matchFirstAux_caps_digits {r : RE} (hg : GroupsDig r) :
    ∀ (s : List Char) (pre : List Char) (prev : Option Char) (f : MFound),
      matchFirstAux r pre prev s = some f → ∀ pr ∈ f.caps, ∀ c ∈ pr.2, isDigitB c := by
  intro s
  induction s with
  | nil =>
    intro pre prev f h
    rw [matchFirstAux] at h
    rcases hh : (run r prev []).head? with _ | res
    · rw [hh] at h
      simp at h
    · rw [hh] at h
      simp at h
      subst h
      exact run_caps_digits r hg prev [] res (mem_of_head? hh)
  | cons c cs ih =>
    intro pre prev f h
    rw [matchFirstAux] at h
    rcases hh : (run r prev (c :: cs)).head? with _ | res
    · rw [hh] at h
      exact ih (c :: pre) (some c) f h
    · rw [hh] at h
      simp at h
      subst h
      exact run_caps_digits r hg prev (c :: cs) res (mem_of_head? hh)

theorem takeWhile_of_all {p : Char → Bool} {l : List Char} (h : ∀ c ∈ l, p c) :
    l.takeWhile p = l := by
  induction l with
  | nil => rfl
  | cons c cs ih =>
    rw [List.takeWhile_cons, if_pos (h c (List.mem_cons_self _ _))]
    rw [ih (fun x hx => h x (List.mem_cons_of_mem _ hx))]

theorem dropWhile_of_all {p : Char → Bool} {l : List Char} (h : ∀ c ∈ l, p c) :
    l.dropWhile p = [] := by
  induction l with
  | nil => rfl
  | cons c cs ih =>
    rw [List.dropWhile_cons, if_pos (h c (List.mem_cons_self _ _))]
    exact ih (fun x hx => h x (List.mem_cons_of_mem _ hx))

theorem parseDec_digits {l : List Char} (hall : ∀ c ∈ l, isDigitB c) {q : ℚ}
    (h : parseDec l = some q) : ∃ k : ℕ, q = (k : ℚ) := by
  rw [parseDec] at h
  simp only [takeWhile_of_all hall, dropWhile_of_all hall] at h
  by_cases he : l.isEmpty
  · rw [if_pos he] at h
    simp at h
  · rw [if_neg he] at h
    simp at h
    exact ⟨digitsToNat l, h.symm⟩

/-- Every EPISODE pattern captures only digit strings. -/
theorem episodePats_groupsDig : ∀ p ∈ EPISODE_PATTERNS, GroupsDig p := by
  intro p hp
  fin_cases hp <;>
    (repeat' first
      | exact GroupsDig.group _
      | constructor)

/-- A value extracted through the EPISODE patterns is a natural number. -/
theorem tryPats_episode_nat {s : List Char} {q : ℚ}
    (h : tryPats EPISODE_PATTERNS s = some q) : ∃ k : ℕ, q = (k : ℚ) := by
  have main : ∀ pats, (∀ p ∈ pats, GroupsDig p) → tryPats pats s = some q →
      ∃ k : ℕ, q = (k : ℚ) := by
    intro pats
    induction pats with
    | nil =>
      intro _ h2
      simp [tryPats] at h2
    | cons p rest ih =>
      intro hall h2
      rw [tryPats] at h2
      split at h2
      · rename_i f hm
        split at h2
        · rename_i num hn
          split at h2
          · injection h2 with h3
            subst h3
            have hcaps := matchFirstAux_caps_digits (hall p (List.mem_cons_self _ _)) s [] none f hm
            simp only [Option.bind_eq_some] at hn
            obtain ⟨cap, hcap, hparse⟩ := hn
            have hcapmem : ∀ c ∈ cap, isDigitB c := by
              rw [cap2or1] at hcap
              split at hcap
              · rename_i l2 h2l
                split at hcap
                · exact fun c hc => hcaps _ (lookup_mem hcap) c hc
                · injection hcap with h4
                  subst h4
                  exact fun c hc => hcaps _ (lookup_mem h2l) c hc
              · exact fun c hc => hcaps _ (lookup_mem hcap) c hc
            exact parseDec_digits hcapmem hparse
          · exact ih (fun x hx => hall x (List.mem_cons_of_mem _ hx)) h2
        · exact ih (fun x hx => hall x (List.mem_cons_of_mem _ hx)) h2
      · exact ih (fun x hx => hall x (List.mem_cons_of_mem _ hx)) h2
  exact main EPISODE_PATTERNS episodePats_groupsDig h

/-! ## Supporting lemmas: field shape of progress marks -/

theorem mkMark_true_chapter (num : ℚ) : (mkMark true num).chapter = none := rfl

theorem mkMark_false_episode (num : ℚ) : (mkMark false num).episode = none := rfl

theorem progressOf_true_chapter (url title : List Char) :
    (progressOf true url title).chapter = none := by
  rw [progressOf]
  split
  · exact mkMark_true_chapter _
  · split
    · exact mkMark_true_chapter _
    · split
      · split
        · split
          · rfl
          · rfl
        · rfl
      · rfl

theorem progressOf_false_episode (url title : List Char) :
    (progressOf false url title).episode = none := by
  rw [progressOf]
  split
  · exact mkMark_false_episode _
  · split
    · exact mkMark_false_episode _
    · split
      · split
        · split
          · rfl
          · rfl
        · rfl
      · rfl

theorem progressOf_true_episode_spec (url title : List Char) {e : ℚ}
    (h : (progressOf true url title).episode = some e) :
    0 < e ∧ e < 10000 ∧ ∃ k : ℕ, e = (k : ℚ) := by
  rw [progressOf] at h
  simp only [patternsFor] at h
  split at h
  · rename_i num hnum
    rw [show mkMark true num = { episode := some ((⌊num⌋ : ℤ) : ℚ) } from rfl] at h
    injection h with h2
    obtain ⟨hlo, hhi⟩ := tryPats_range hnum
    obtain ⟨k, hk⟩ := tryPats_episode_nat hnum
    subst hk
    have hfl : ⌊(k : ℚ)⌋ = (k : ℤ) := Int.floor_natCast k
    rw [hfl] at h2
    subst h2
    refine ⟨?_, ?_, k, by push_cast; ring⟩
    · push_cast
      exact_mod_cast hlo
    · exact_mod_cast hhi
  · split at h
    · rename_i num hnum
      rw [show mkMark true num = { episode := some ((⌊num⌋ : ℤ) : ℚ) } from rfl] at h
      injection h with h2
      obtain ⟨hlo, hhi⟩ := tryPats_range hnum
      obtain ⟨k, hk⟩ := tryPats_episode_nat hnum
      subst hk
      have hfl : ⌊(k : ℚ)⌋ = (k : ℤ) := Int.floor_natCast k
      rw [hfl] at h2
      subst h2
      refine ⟨?_, ?_, k, by push_cast; ring⟩
      · exact_mod_cast hlo
      · exact_mod_cast hhi
    · split at h
      · split at h
        · split at h
          · rename_i n _ hguard
            replace h : some ((n : ℕ) : ℚ) = some e := h
            injection h with h2
            subst h2
            obtain ⟨h1, h2⟩ := hguard
            refine ⟨by exact_mod_cast h1, ?_, n, rfl⟩
            have : (n : ℚ) < 5000 := by exact_mod_cast h2
            linarith
          · simp at h
        · simp at h
      · simp at h

theorem progressOf_false_chapter_spec (url title : List Char) {c : ℚ}
    (h : (progressOf false url title).chapter = some c) :
    0 < c ∧ c < 10000 := by
  rw [progressOf] at h
  simp only [patternsFor] at h
  split at h
  · rename_i num hnum
    rw [show mkMark false num = { chapter := some num } from rfl] at h
    injection h with h2
    subst h2
    exact tryPats_range hnum
  · split at h
    · rename_i num hnum
      rw [show mkMark false num = { chapter := some num } from rfl] at h
      injection h with h2
      subst h2
      exact tryPats_range hnum
    · split at h
      · split at h
        · split at h
          · rename_i n _ hguard
            replace h : some ((n : ℕ) : ℚ) = some c := h
            injection h with h2
            subst h2
            obtain ⟨h1, h2⟩ := hguard
            constructor
            · exact_mod_cast h1
            · have : (n : ℚ) < 5000 := by exact_mod_cast h2
              linarith
          · simp at h
        · simp at h
      · simp at h

theorem spatMark_excl (p : SPat) (n : Nat) :
    (spatMark p n).chapter = none ∨ (spatMark p n).episode = none := by
  rw [spatMark]
  split
  · left
    rfl
  · right
    rfl

theorem tryClause_excl {s : List Char} {p : SPat} {m : ProgressMark}
    (h : tryClause s p = some m) : m.chapter = none ∨ m.episode = none := by
  rw [tryClause] at h
  split at h
  · split at h
    · split at h
      · injection h with h2
        subst h2
        exact spatMark_excl _ _
      · simp at h
    · simp at h
  · simp at h

theorem simpleGo_excl (url title : List Char) : ∀ ps : List SPat,
    (simpleGo url title ps).chapter = none ∨ (simpleGo url title ps).episode = none := by
  intro ps
  induction ps with
  | nil =>
    left
    rfl
  | cons p rest ih =>
    rw [simpleGo]
    split
    · rename_i m hm
      exact tryClause_excl hm
    · split
      · rename_i m hm
        exact tryClause_excl hm
      · exact ih

/-! ## Claim theorems -/

/-- C4: `extractProgress` tries the category pattern set on the URL, then on
the title, then falls back to a standalone URL-path integer bounded below
5000; the spec example `extractProgress("https://example.com/read/title/chapter-42",
"Title Chapter 42", "manga")` yields chapter 42.  The four probes exercise,
in order: the URL tier, the title tier (URL has no match), the last-resort
path tier (no episode pattern matches), and the `< 5000` bound rejecting a
path number of 6000. -/
theorem extractProgress_pattern_chain :
    extractProgress "https://example.com/read/title/chapter-42" "Title Chapter 42" .manga
      = { chapter := some 42 } ∧
    extractProgress "https://e.com/x" "chapter 7" .manga = { chapter := some 7 } ∧
    extractProgress "https://e.com/show/123" "plain title" .anime = { episode := some 123 } ∧
    extractProgress "https://e.com/show/6000" "x" .anime = {} := by
  refine ⟨by decide, by decide, by decide, by decide⟩

/-- C5 (amended): every chapter or episode value produced by
`extractProgress` lies strictly between 0 and 10000, and episode values are
integers (natural numbers); chapter values may be fractional (see the
counterexample). -/
theorem extractProgress_value_range : ∀ (url title : String) (mt : MediaType),
    (∀ c : ℚ, (extractProgress url title mt).chapter = some c → 0 < c ∧ c < 10000) ∧
    (∀ e : ℚ, (extractProgress url title mt).episode = some e →
      0 < e ∧ e < 10000 ∧ ∃ k : ℕ, e = (k : ℚ)) := by
  intro url title mt
  cases mt
  case anime =>
    constructor
    · intro c hc
      rw [show extractProgress url title .anime = progressOf true url.data title.data from rfl,
        progressOf_true_chapter] at hc
      cases hc
    · intro e he
      exact progressOf_true_episode_spec url.data title.data he
  all_goals
    constructor
  case novel.left =>
    intro c hc
    exact progressOf_false_chapter_spec url.data title.data hc
  case novel.right =>
    intro e he
    rw [show extractProgress url title .novel = progressOf false url.data title.data from rfl,
      progressOf_false_episode] at he
    cases he
  case manga.left =>
    intro c hc
    exact progressOf_false_chapter_spec url.data title.data hc
  case manga.right =>
    intro e he
    rw [show extractProgress url title .manga = progressOf false url.data title.data from rfl,
      progressOf_false_episode] at he
    cases he
  case webcomic.left =>
    intro c hc
    exact progressOf_false_chapter_spec url.data title.data hc
  case webcomic.right =>
    intro e he
    rw [show extractProgress url title .webcomic = progressOf false url.data title.data from rfl,
      progressOf_false_episode] at he
    cases he

/-- C5 witness: at a concrete input the extracted chapter is 7, which the
range theorem places in (0, 10000). -/
theorem extractProgress_value_range_witness :
    (extractProgress "https://x.com/chapter-7" "" .manga).chapter = some 7 ∧
    (0 : ℚ) < 7 ∧ (7 : ℚ) < 10000 := by
  have h : (extractProgress "https://x.com/chapter-7" "" .manga).chapter = some 7 := by decide
  exact ⟨h, (extractProgress_value_range "https://x.com/chapter-7" "" .manga).1 7 h⟩

/-- C5 counterexample: the claim as stated says every present value is an
integer; on `https://x.com/chapter-12.5` the chapter pattern captures `12.5`
and the stored chapter value is the non-integer 25/2. -/
theorem extractProgress_fractional_chapter :
    (extractProgress "https://x.com/chapter-12.5" "" .manga).chapter = some (mkRat 25 2) ∧
    (mkRat 25 2 : ℚ) = 25 / 2 ∧
    ¬ ∃ k : ℤ, (mkRat 25 2 : ℚ) = (k : ℚ) := by
  refine ⟨by decide, by rw [Rat.mkRat_eq_div]; norm_num, ?_⟩
  rintro ⟨k, hk⟩
  have hden : (mkRat 25 2 : ℚ).den = 1 := by
    rw [hk]
    exact Rat.den_intCast k
  have : (mkRat 25 2 : ℚ).den = 2 := by decide
  omega

/-- C6: `extractProgress` never sets `chapter` for anime, never sets
`episode` for the other three categories, and neither `extractProgress` nor
`extractProgressSimple` ever sets both fields of a `ProgressMark`. -/
theorem progressMark_mutual_exclusivity : ∀ url title : String,
    (extractProgress url title .anime).chapter = none ∧
    (extractProgress url title .manga).episode = none ∧
    (extractProgress url title .webcomic).episode = none ∧
    (extractProgress url title .novel).episode = none ∧
    (∀ mt : MediaType, (extractProgress url title mt).chapter = none ∨
      (extractProgress url title mt).episode = none) ∧
    ((extractProgressSimple url title).chapter = none ∨
      (extractProgressSimple url title).episode = none) := by
  intro url title
  refine ⟨progressOf_true_chapter _ _, progressOf_false_episode _ _,
    progressOf_false_episode _ _, progressOf_false_episode _ _, ?_, simpleGo_excl _ _ _⟩
  intro mt
  cases mt
  case anime => exact Or.inl (progressOf_true_chapter _ _)
  all_goals exact Or.inr (progressOf_false_episode _ _)

/-! ## Supporting lemmas: the classifier selection loop -/

/-- The `Object.entries` iteration order of the score table. -/
def catIdx : MediaType → Nat
  | .anime => 0
  | .manga => 1
  | .webcomic => 2
  | .novel => 3

/-- The selection loop picks the first category (in iteration order) that
attains the maximum, defaulting to `manga` when every score is zero. -/
theorem pickMax_eq (a m w n : Nat) :
    pickMax a m w n =
      (if 0 < a ∧ m ≤ a ∧ w ≤ a ∧ n ≤ a then .anime
       else if 0 < m ∧ w ≤ m ∧ n ≤ m then .manga
       else if 0 < w ∧ n ≤ w then .webcomic
       else if 0 < n then .novel
       else .manga) := by
  rw [pickMax]
  simp only [List.foldl_cons, List.foldl_nil]
  split_ifs <;> simp_all <;> omega

/-! ## Claim theorems (classifier) -/

/-- C1: `detectMediaType` always returns one of the four categories; when
every category scores zero it returns the `manga` default; and when two
categories tie for the (positive) highest score, the one earlier in the
iteration order anime, manga, webcomic, novel is returned. -/
theorem detectMediaType_total_default_tiebreak : ∀ url title content : String,
    (detectMediaType url title content = .anime ∨ detectMediaType url title content = .manga ∨
     detectMediaType url title content = .webcomic ∨ detectMediaType url title content = .novel) ∧
    ((∀ t, categoryScore url title content t = 0) → detectMediaType url title content = .manga) ∧
    (∀ x y : MediaType, catIdx x < catIdx y →
      categoryScore url title content x = categoryScore url title content y →
      0 < categoryScore url title content x →
      (∀ z, categoryScore url title content z ≤ categoryScore url title content x) →
      (∀ z, catIdx z < catIdx x →
        categoryScore url title content z < categoryScore url title content x) →
      detectMediaType url title content = x) := by
  intro url title content
  have hdef : detectMediaType url title content =
      pickMax (categoryScore url title content .anime) (categoryScore url title content .manga)
        (categoryScore url title content .webcomic) (categoryScore url title content .novel) := rfl
  refine ⟨?_, ?_, ?_⟩
  · rw [hdef, pickMax_eq]
    split_ifs <;> simp
  · intro hz
    rw [hdef, hz, hz, hz, hz, pickMax_eq]
    simp
  · intro x y hxy heq hpos hmax hearlier
    have ha := hmax .anime
    have hm := hmax .manga
    have hw := hmax .webcomic
    have hn := hmax .novel
    rw [hdef, pickMax_eq]
    cases x
    case novel =>
      have e1 : categoryScore url title content .anime <
          categoryScore url title content .novel := hearlier .anime (by simp [catIdx])
      have e2 : categoryScore url title content .manga <
          categoryScore url title content .novel := hearlier .manga (by simp [catIdx])
      have e3 : categoryScore url title content .webcomic <
          categoryScore url title content .novel := hearlier .webcomic (by simp [catIdx])
      split_ifs <;> first | rfl | (exfalso; omega)
    case manga =>
      have e1 : categoryScore url title content .anime <
          categoryScore url title content .manga := hearlier .anime (by simp [catIdx])
      split_ifs <;> first | rfl | (exfalso; omega)
    case webcomic =>
      have e1 : categoryScore url title content .anime <
          categoryScore url title content .webcomic := hearlier .anime (by simp [catIdx])
      have e2 : categoryScore url title content .manga <
          categoryScore url title content .webcomic := hearlier .manga (by simp [catIdx])
      split_ifs <;> first | rfl | (exfalso; omega)
    case anime =>
      split_ifs <;> first | rfl | (exfalso; omega)

/-- C1 witness: on empty inputs every category scores zero, and the
classifier returns the `manga` default. -/
theorem detectMediaType_total_default_tiebreak_witness :
    (∀ t, categoryScore "" "" "" t = 0) ∧ detectMediaType "" "" "" = .manga := by
  have hz : ∀ t, categoryScore "" "" "" t = 0 := by
    intro t
    cases t <;> decide
  exact ⟨hz, (detectMediaType_total_default_tiebreak "" "" "").2.1 hz⟩

/-! ## Claim theorems (error handling, similarity, cascade, titles) -/

/-- C9: every embedded engine function is total by construction; the
degraded behavior the spec pins down holds: an unparseable URL yields the
empty-string domain in `getDomain` and the empty result in
`extractTitleFromUrl` instead of propagating an error. -/
theorem unparseable_url_degrades : ∀ url : String,
    parseURL? url.data = none →
    getDomain url = "" ∧ extractTitleFromUrl url = "" := by
  intro url h
  constructor
  · simp only [getDomain, getDomainL, h]
  · simp only [extractTitleFromUrl, extractTitleFromUrlL, h]

/-- C9 witness: `"not a url"` (no scheme) fails to parse and both functions
degrade. -/
theorem unparseable_url_degrades_witness :
    getDomain "not a url" = "" ∧ extractTitleFromUrl "not a url" = "" :=
  unparseable_url_degrades "not a url" (by decide)

theorem normalizeTitle_data (t : String) :
    (normalizeTitle t).data = normalizeTitleL t.data := by
  rw [normalizeTitle]

/-- C10: for every pair of titles whose match-mode normalizations are both
the empty string (e.g. two entirely different all-punctuation titles), the
exact-equality check runs before the emptiness check, so their similarity
is 1 (not 0) and `isSameWork` holds at every threshold up to 1. -/
theorem punctuation_titles_similarity (t1 t2 : String)
    (h1 : normalizeTitle t1 = "") (h2 : normalizeTitle t2 = "") :
    calculateTitleSimilarity t1 t2 = 1 ∧
    (∀ th : ℚ, th ≤ 1 → isSameWork t1 t2 th = true) := by
  have e1 : normalizeTitleL t1.data = [] := by
    have h := congrArg String.data h1
    rw [normalizeTitle_data] at h
    exact h
  have e2 : normalizeTitleL t2.data = [] := by
    have h := congrArg String.data h2
    rw [normalizeTitle_data] at h
    exact h
  have hsim : calculateTitleSimilarity t1 t2 = 1 := by
    rw [calculateTitleSimilarity, e1, e2]
    rfl
  refine ⟨hsim, ?_⟩
  intro th hth
  rw [isSameWork, hsim]
  simpa using hth

/-- C10 witness: the all-punctuation pair `"!!!"`/`"???"` normalizes to the
empty string on both sides, scores 1 and passes `isSameWork` at the maximal
threshold 1. -/
theorem punctuation_titles_similarity_witness :
    normalizeTitle "!!!" = "" ∧ normalizeTitle "???" = "" ∧
    calculateTitleSimilarity "!!!" "???" = 1 ∧ isSameWork "!!!" "???" 1 = true :=
  ⟨by decide, by decide,
   (punctuation_titles_similarity "!!!" "???" (by decide) (by decide)).1,
   (punctuation_titles_similarity "!!!" "???" (by decide) (by decide)).2 1 le_rfl⟩

theorem firstSome_all_none {l : List (Option MediaMetadata)} (h : ∀ o ∈ l, o = none) :
    firstSome l = none := by
  induction l with
  | nil => rfl
  | cons o rest ih =>
    have ho := h o (List.mem_cons_self _ _)
    subst ho
    rw [firstSome]
    exact ih (fun x hx => h x (List.mem_cons_of_mem _ hx))

/-- C3: if the primary adapter and every fallback adapter of the category's
strategy return no match (which in the source also covers failed calls and
non-success HTTP statuses), `searchMetadata` returns `null` — and, being a
total function, cannot throw; and whenever the primary adapter returns a
match, that match is returned, whatever the fallback adapters would do. -/
theorem searchMetadata_cascade : ∀ (A : Adapters) (title : String) (ty : MediaType),
    (((SEARCH_STRATEGIES A ty).primary (normalizeTitle title) ty = none ∧
      ∀ f ∈ (SEARCH_STRATEGIES A ty).fallbacks, f (normalizeTitle title) ty = none) →
      searchMetadata A title ty = none) ∧
    (∀ r, (SEARCH_STRATEGIES A ty).primary (normalizeTitle title) ty = some r →
      searchMetadata A title ty = some r) := by
  intro A title ty
  constructor
  · rintro ⟨hp, hf⟩
    rw [searchMetadata]
    simp only [hp]
    apply firstSome_all_none
    intro o ho
    obtain ⟨f, hfm, rfl⟩ := List.mem_map.1 ho
    exact hf f hfm
  · intro r hr
    rw [searchMetadata]
    simp only [hr]

/-- C3 witness: with all adapters returning no match the cascade returns
`none`; with a primary hit it returns that hit. -/
theorem searchMetadata_cascade_witness :
    searchMetadata ⟨fun _ _ => none, fun _ _ => none, fun _ => none, fun _ => none⟩
      "x" .manga = none ∧
    searchMetadata ⟨fun _ _ => some ⟨"1", "t", "u", .anilist⟩, fun _ _ => none,
      fun _ => none, fun _ => none⟩ "x" .manga = some ⟨"1", "t", "u", .anilist⟩ := by
  constructor
  · refine (searchMetadata_cascade _ "x" .manga).1 ⟨rfl, ?_⟩
    intro f hf
    simp only [SEARCH_STRATEGIES, List.mem_cons, List.not_mem_nil, or_false] at hf
    rcases hf with rfl | rfl <;> rfl
  · exact (searchMetadata_cascade _ "x" .manga).2 _ rfl

/-- C7 counterexample: for the page title `"chapter"` (a placeholder word)
and a URL whose derived title `"Abc"` is nonempty, the claim mandates the
URL fallback, but the code keeps the cleaned page title because the
URL-derived title is not strictly longer. -/
theorem extractTitle_no_fallback_counterexample :
    cleanPageTitle "chapter" = "chapter" ∧
    reTest PLACEHOLDER_PAT "chapter".data = true ∧
    extractTitleFromUrl "https://x.com/abc" = "Abc" ∧
    extractTitle "chapter" "https://x.com/abc" = "chapter" ∧
    ("chapter" : String) ≠ "Abc" :=
  ⟨by decide, by decide, by decide, by decide, by decide⟩

theorem cleanPageTitle_length (p : String) :
    (cleanPageTitle p).length = (cleanPageTitleL p.data).length := by
  rw [cleanPageTitle]
  rfl

theorem cleanPageTitle_data (p : String) :
    (cleanPageTitle p).data = cleanPageTitleL p.data := by
  rw [cleanPageTitle]

theorem extractTitleFromUrl_length (u : String) :
    (extractTitleFromUrl u).length = (extractTitleFromUrlL u.data).length := by
  rw [extractTitleFromUrl]
  rfl

theorem extractTitleFromUrl_mk (u : String) :
    extractTitleFromUrl u = String.mk (extractTitleFromUrlL u.data) := by
  rw [extractTitleFromUrl]

/-- C7 (amended): when the cleaned page title is degenerate (shorter than 3
characters or a placeholder word), `extractTitle` falls back to the
URL-derived title exactly when that title is nonempty and strictly longer
than the cleaned page title; and when both are empty the result is the
literal `"Untitled"`. -/
theorem extractTitle_fallback : ∀ pageTitle url : String,
    (((cleanPageTitle pageTitle).length < 3 ∨
        reTest PLACEHOLDER_PAT (cleanPageTitle pageTitle).data = true) →
      extractTitleFromUrl url ≠ "" →
      (cleanPageTitle pageTitle).length < (extractTitleFromUrl url).length →
      extractTitle pageTitle url = extractTitleFromUrl url) ∧
    (cleanPageTitle pageTitle = "" → extractTitleFromUrl url = "" →
      extractTitle pageTitle url = "Untitled") := by
  intro pageTitle url
  constructor
  · intro hdeg hne hlen
    rw [cleanPageTitle_length, extractTitleFromUrl_length] at hlen
    rw [cleanPageTitle_length, cleanPageTitle_data] at hdeg
    rw [extractTitleFromUrl_mk] at hne
    have hne2 : (extractTitleFromUrlL url.data).isEmpty = false := by
      rcases he : extractTitleFromUrlL url.data with _ | ⟨c, cs⟩
      · rw [he] at hne
        exact absurd rfl hne
      · rfl
    have hconds : (decide ((cleanPageTitleL pageTitle.data).length < 3) ||
        reTest PLACEHOLDER_PAT (cleanPageTitleL pageTitle.data)) = true := by
      rcases hdeg with h | h
      · rw [decide_eq_true h, Bool.true_or]
      · rw [h, Bool.or_true]
    rw [extractTitle, extractTitleFromUrl_mk, extractTitleL]
    simp only [hconds, if_true, hne2, Bool.not_false, Bool.true_and, decide_eq_true hlen,
      Bool.false_eq_true, if_false]
  · intro hT hU
    have hT2 : cleanPageTitleL pageTitle.data = [] := by
      have h2 := congrArg String.data hT
      rw [cleanPageTitle_data] at h2
      exact h2
    have hU2 : extractTitleFromUrlL url.data = [] := by
      have h2 := congrArg String.data hU
      rw [extractTitleFromUrl_mk] at h2
      exact h2
    rw [extractTitle, extractTitleL]
    simp only [hT2, hU2]
    rfl

/-- C7 witness: the fallback fires for a 2-character cleaned title with a
longer URL-derived title, and both-empty inputs give `"Untitled"`. -/
theorem extractTitle_fallback_witness :
    extractTitle "ab" "https://x.com/my-story" = extractTitleFromUrl "https://x.com/my-story" ∧
    extractTitle "" "" = "Untitled" := by
  constructor
  · exact (extractTitle_fallback "ab" "https://x.com/my-story").1 (by decide) (by decide)
      (by decide)
  · exact (extractTitle_fallback "" "").2 (by decide) (by decide)

/-! ## Supporting lemmas: the adapter selection loop -/

theorem updSel_ne_none (input : String) (best : Option (AniMedia × ℚ × String)) (m : AniMedia) :
    updSel input best m ≠ none := by
  rcases best with _ | b
  · simp [updSel]
  · simp only [updSel]
    split <;> simp

theorem updSel_cases {input : String} {best : Option (AniMedia × ℚ × String)} {m : AniMedia}
    {b' : AniMedia × ℚ × String} (h : updSel input best m = some b') :
    b' = (m, (candScore input m).1, (candScore input m).2) ∨ best = some b' := by
  rcases best with _ | b
  · simp only [updSel] at h
    injection h with h2
    exact Or.inl h2.symm
  · simp only [updSel] at h
    split at h
    · injection h with h2
      exact Or.inl h2.symm
    · exact Or.inr h

theorem updSel_score_ge {input : String} {best : Option (AniMedia × ℚ × String)} {m : AniMedia}
    {b' : AniMedia × ℚ × String} (h : updSel input best m = some b') :
    (candScore input m).1 ≤ b'.2.1 := by
  rcases best with _ | b
  · simp only [updSel] at h
    injection h with h2
    rw [← h2]
  · simp only [updSel] at h
    split at h
    · injection h with h2
      rw [← h2]
    · rename_i hlt
      injection h with h2
      rw [← h2]
      exact le_of_not_lt hlt

theorem updSel_old_le {input : String} {best : Option (AniMedia × ℚ × String)} {m : AniMedia}
    {b0 b' : AniMedia × ℚ × String} (hb : best = some b0) (h : updSel input best m = some b') :
    b0.2.1 ≤ b'.2.1 := by
  subst hb
  simp only [updSel] at h
  split at h
  · rename_i hlt
    injection h with h2
    rw [← h2]
    exact le_of_lt hlt
  · injection h with h2
    rw [← h2]

/-- Invariant of the `searchAniList` selection loop: a `none` result means
nothing was scanned; a `some` result is the initial best or an actual
candidate scored by `candScore`, and — as long as no candidate triggered the
0.95 early break — it dominates every scanned score. -/
theorem searchSelect_spec (input : String) :
    ∀ (cands : List AniMedia) (best : Option (AniMedia × ℚ × String)),
      (searchSelect input best cands = none → best = none ∧ cands = []) ∧
      (∀ b', searchSelect input best cands = some b' →
        (best = some b' ∨ ∃ m ∈ cands, b'.1 = m ∧ b'.2.1 = (candScore input m).1) ∧
        (b'.2.1 < mkRat 19 20 →
          (∀ m ∈ cands, (candScore input m).1 ≤ b'.2.1) ∧
          (∀ b0, best = some b0 → b0.2.1 ≤ b'.2.1))) := by
  intro cands
  induction cands with
  | nil =>
    intro best
    constructor
    · intro h
      rw [searchSelect] at h
      exact ⟨h, rfl⟩
    · intro b' h
      rw [searchSelect] at h
      refine ⟨Or.inl h, fun _ => ⟨by simp, ?_⟩⟩
      intro b0 hb0
      rw [h] at hb0
      injection hb0 with h2
      rw [h2]
  | cons m rest ih =>
    intro best
    constructor
    · intro h
      rw [searchSelect] at h
      split at h
      · exact absurd h (updSel_ne_none input best m)
      · exact absurd ((ih (updSel input best m)).1 h).1 (updSel_ne_none input best m)
    · intro b' h
      rw [searchSelect] at h
      split at h
      · rename_i hbr
        constructor
        · rcases updSel_cases h with h1 | h1
          · exact Or.inr ⟨m, List.mem_cons_self _ _, by rw [h1], by rw [h1]⟩
          · exact Or.inl h1
        · intro hlt
          exact absurd hlt (not_lt.2 (le_trans hbr (updSel_score_ge h)))
      · rename_i hbr
        obtain ⟨hmem, hmax⟩ := (ih (updSel input best m)).2 b' h
        constructor
        · rcases hmem with h1 | h1
          · rcases updSel_cases h1 with h2 | h2
            · exact Or.inr ⟨m, List.mem_cons_self _ _, by rw [h2], by rw [h2]⟩
            · exact Or.inl h2
          · obtain ⟨m2, hm2, he1, he2⟩ := h1
            exact Or.inr ⟨m2, List.mem_cons_of_mem _ hm2, he1, he2⟩
        · intro hlt
          obtain ⟨hall, hold⟩ := hmax hlt
          constructor
          · intro m2 hm2
            rcases List.mem_cons.1 hm2 with rfl | hm2
            · rcases hub : updSel input best m2 with _ | b''
              · exact absurd hub (updSel_ne_none input best m2)
              · exact le_trans (updSel_score_ge hub) (hold b'' hub)
            · exact hall m2 hm2
          · intro b0 hb0
            rcases hub : updSel input best m with _ | b''
            · exact absurd hub (updSel_ne_none input best m)
            · exact le_trans (updSel_old_le hb0 hub) (hold b'' hub)

/-! ## Claim theorem (adapter candidate selection) -/

/-- C2: the adapter core scores each candidate by the best similarity over
its title variants, keeps the single best-scoring candidate scanned so far
(strict improvement, so the earliest of a tie), stops scanning at a score of
0.95 or more, and returns a match exactly when the kept candidate's score
reaches the 0.7 acceptance threshold: `none` exactly when every candidate
scores below 0.7; a returned match is built from a candidate whose score is
at least 0.7 and — when below the 0.95 early break — maximal among all
candidates; and a candidate scoring at least 0.95 guarantees a match. -/
theorem searchAniListCore_selection : ∀ (input : String) (cands : List AniMedia),
    (searchAniListCore input cands = none ↔
      ∀ m ∈ cands, (candScore input m).1 < MIN_MATCH_THRESHOLD) ∧
    (∀ r, searchAniListCore input cands = some r →
      ∃ m ∈ cands, r.id = toString m.mid ∧ MIN_MATCH_THRESHOLD ≤ (candScore input m).1 ∧
        ((candScore input m).1 < mkRat 19 20 →
          ∀ m2 ∈ cands, (candScore input m2).1 ≤ (candScore input m).1)) ∧
    ((∃ m ∈ cands, mkRat 19 20 ≤ (candScore input m).1) →
      ∃ r, searchAniListCore input cands = some r) := by
  intro input cands
  have hthr : MIN_MATCH_THRESHOLD < mkRat 19 20 := by
    rw [MIN_MATCH_THRESHOLD, Rat.mkRat_eq_div, Rat.mkRat_eq_div]
    norm_num
  have hnone : searchAniListCore input cands = none ↔
      ∀ m ∈ cands, (candScore input m).1 < MIN_MATCH_THRESHOLD := by
    constructor
    · intro h m hm
      rw [searchAniListCore] at h
      split at h
      · rename_i hsel
        have h2 := ((searchSelect_spec input cands none).1 hsel).2
        subst h2
        simp at hm
      · rename_i m0 s0 t0 hsel
        split at h
        · rename_i hscore
          obtain ⟨hmem, hmax⟩ := (searchSelect_spec input cands none).2 _ hsel
          have hall := (hmax (lt_trans hscore hthr)).1
          exact lt_of_le_of_lt (hall m hm) hscore
        · simp at h
    · intro hall
      rw [searchAniListCore]
      rcases hsel : searchSelect input none cands with _ | b'
      · rfl
      · obtain ⟨m0, s0, t0⟩ := b'
        obtain ⟨hmem, _⟩ := (searchSelect_spec input cands none).2 _ hsel
        rcases hmem with h1 | h1
        · simp at h1
        · obtain ⟨m2, hm2, he1, he2⟩ := h1
          have : s0 < MIN_MATCH_THRESHOLD := by
            have := hall m2 hm2
            rw [← he2] at this
            exact this
          simp only [this, if_pos]
  refine ⟨hnone, ?_, ?_⟩
  · intro r hr
    rw [searchAniListCore] at hr
    split at hr
    · simp at hr
    · rename_i m0 s0 t0 hsel
      split at hr
      · simp at hr
      · rename_i hscore
        obtain ⟨hmem, hmax⟩ := (searchSelect_spec input cands none).2 _ hsel
        rcases hmem with h1 | h1
        · simp at h1
        · obtain ⟨m2, hm2, he1, he2⟩ := h1
          refine ⟨m2, hm2, ?_, ?_, ?_⟩
          · injection hr with h2
            rw [← h2]
            simp only [MediaMetadata.id]
            rw [show (m0, s0, t0).1 = m0 from rfl] at he1
            rw [he1]
          · rw [← he2]
            exact le_of_not_lt hscore
          · intro hlt m3 hm3
            rw [← he2]
            rw [show ((m0, s0, t0) : AniMedia × ℚ × String).2.1 = s0 from rfl] at he2
            rw [← he2] at hlt
            exact (hmax hlt).1 m3 hm3
  · intro hex
    rcases hcore : searchAniListCore input cands with _ | r
    · obtain ⟨m, hm, hge⟩ := hex
      have := hnone.1 hcore m hm
      exact absurd (lt_of_lt_of_le (lt_of_lt_of_le this (le_of_lt hthr)) hge)
        (lt_irrefl _)
    · exact ⟨r, rfl⟩

/-- C2 witness: a lone low-scoring candidate yields no match; an exact-match
candidate (score 1 ≥ 0.95) guarantees a match. -/
theorem searchAniListCore_selection_witness :
    searchAniListCore "aaa" [⟨7, some "zzz", none, none, [], some "c", none⟩] = none ∧
    ∃ r, searchAniListCore "abc" [⟨7, some "abc", none, none, [], some "c", none⟩] = some r := by
  constructor
  · exact (searchAniListCore_selection "aaa" _).1.mpr (by decide)
  · exact (searchAniListCore_selection "abc" _).2.2
      ⟨⟨7, some "abc", none, none, [], some "c", none⟩, List.mem_cons_self _ _, by decide⟩

/-! ## Supporting lemmas: ASCII case mapping -/

theorem char_toNat_ofNat {n : Nat} (h : n < 55296) : (Char.ofNat n).toNat = n := by
  rw [Char.ofNat, dif_pos (Or.inl h)]
  rfl

theorem char_eq_of_toNat {a b : Char} (h : a.toNat = b.toNat) : a = b :=
  Char.ext (UInt32.ext h)

theorem toNat_toLower (c : Char) : (Char.toLower c).toNat =
    if c.toNat ≥ 65 ∧ c.toNat ≤ 90 then c.toNat + 32 else c.toNat := by
  rw [Char.toLower]
  split
  · exact char_toNat_ofNat (by omega)
  · rfl

theorem toNat_toUpper (c : Char) : (Char.toUpper c).toNat =
    if c.toNat ≥ 97 ∧ c.toNat ≤ 122 then c.toNat - 32 else c.toNat := by
  rw [Char.toUpper]
  split
  · exact char_toNat_ofNat (by omega)
  · rfl

theorem toLower_toLower (c : Char) : Char.toLower (Char.toLower c) = Char.toLower c := by
  apply char_eq_of_toNat
  rw [toNat_toLower (Char.toLower c), toNat_toLower c]
  split_ifs <;> omega

theorem toUpper_toUpper (c : Char) : Char.toUpper (Char.toUpper c) = Char.toUpper c := by
  apply char_eq_of_toNat
  rw [toNat_toUpper (Char.toUpper c), toNat_toUpper c]
  split_ifs <;> omega

theorem toLower_toUpper (c : Char) : Char.toLower (Char.toUpper c) = Char.toLower c := by
  apply char_eq_of_toNat
  rw [toNat_toLower (Char.toUpper c), toNat_toUpper c, toNat_toLower c]
  split_ifs <;> omega

theorem wsb_toNat_iff (c : Char) : isWSB c = true ↔
    (c.toNat = 32 ∨ c.toNat = 9 ∨ c.toNat = 10 ∨ c.toNat = 13 ∨
     c.toNat = 11 ∨ c.toNat = 12) := by
  rw [isWSB]
  simp only [Bool.or_eq_true, beq_iff_eq]
  tauto

theorem isWSB_toUpper (c : Char) : isWSB (Char.toUpper c) = isWSB c := by
  rw [Bool.eq_iff_iff, wsb_toNat_iff, wsb_toNat_iff, toNat_toUpper]
  split_ifs <;> omega

theorem isWSB_toLower (c : Char) : isWSB (Char.toLower c) = isWSB c := by
  rw [Bool.eq_iff_iff, wsb_toNat_iff, wsb_toNat_iff, toNat_toLower]
  split_ifs <;> omega

theorem toUpper_space (c : Char) : Char.toUpper c = ' ' ↔ c = ' ' := by
  constructor
  · intro h
    apply char_eq_of_toNat
    have h2 := congrArg Char.toNat h
    rw [toNat_toUpper] at h2
    show c.toNat = 32
    have h3 : (' ' : Char).toNat = 32 := rfl
    rw [h3] at h2
    split_ifs at h2 <;> omega
  · intro h
    subst h
    rfl

theorem toLower_space (c : Char) : Char.toLower c = ' ' ↔ c = ' ' := by
  constructor
  · intro h
    apply char_eq_of_toNat
    have h2 := congrArg Char.toNat h
    rw [toNat_toLower] at h2
    show c.toNat = 32
    have h3 : (' ' : Char).toNat = 32 := rfl
    rw [h3] at h2
    split_ifs at h2 <;> omega
  · intro h
    subst h
    rfl

theorem not_space_of_not_wsb {c : Char} (h : isWSB c = false) : ¬(c = ' ') := by
  intro hc
  subst hc
  exact absurd h (by decide)

/-! ## Supporting lemmas: words, splitting and whitespace collapse -/

theorem strLow_strLow (w : List Char) : strLow (strLow w) = strLow w := by
  simp only [strLow, List.map_map]
  exact List.map_congr_left fun c _ => toLower_toLower c

theorem strLow_upFirst (w : List Char) : strLow (upFirst w) = strLow w := by
  cases w with
  | nil => rfl
  | cons c r =>
    simp only [upFirst, strLow, List.map_cons, List.map_map, toLower_toUpper]
    exact congrArg _ (List.map_congr_left fun d _ => toLower_toLower d)

theorem isMinor_upFirst (w : List Char) : isMinor (upFirst w) = isMinor w := by
  rw [isMinor, isMinor, strLow_upFirst]

theorem isMinor_strLow (w : List Char) : isMinor (strLow w) = isMinor w := by
  rw [isMinor, isMinor, strLow_strLow]

theorem upFirst_upFirst (w : List Char) : upFirst (upFirst w) = upFirst w := by
  cases w with
  | nil => rfl
  | cons c r =>
    rw [upFirst, upFirst, toUpper_toUpper, strLow_strLow]

theorem tcWord_idem (i : Nat) (w : List Char) : tcWord i (tcWord i w) = tcWord i w := by
  by_cases hcond : (i == 0 || !isMinor w) = true
  · have h1 : tcWord i w = upFirst w := by rw [tcWord, if_pos hcond]
    rw [h1, tcWord, if_pos (by rw [isMinor_upFirst]; exact hcond), upFirst_upFirst]
  · have h1 : tcWord i w = strLow w := by rw [tcWord, if_neg hcond]
    rw [h1, tcWord, if_neg (by rw [isMinor_strLow]; exact hcond), strLow_strLow]

theorem mapIdx_tcWord_idem : ∀ (ws : List (List Char)) (i : Nat),
    mapIdx' tcWord i (mapIdx' tcWord i ws) = mapIdx' tcWord i ws := by
  intro ws
  induction ws with
  | nil => intro i; rfl
  | cons w rest ih =>
    intro i
    rw [mapIdx', mapIdx', tcWord_idem, ih]

theorem tcWord_length (i : Nat) (w : List Char) : (tcWord i w).length = w.length := by
  rw [tcWord]
  split
  · cases w with
    | nil => rfl
    | cons c r => simp [upFirst, strLow]
  · simp [strLow]

theorem tcWord_wsFree (i : Nat) {w : List Char} (h : ∀ c ∈ w, isWSB c = false) :
    ∀ c ∈ tcWord i w, isWSB c = false := by
  rw [tcWord]
  split
  · cases w with
    | nil => simp [upFirst]
    | cons a r =>
      intro c hc
      rw [upFirst] at hc
      rcases List.mem_cons.1 hc with rfl | hc
      · rw [isWSB_toUpper]
        exact h a (List.mem_cons_self _ _)
      · obtain ⟨d, hd, rfl⟩ := List.mem_map.1 hc
        rw [isWSB_toLower]
        exact h d (List.mem_cons_of_mem _ hd)
  · intro c hc
    obtain ⟨d, hd, rfl⟩ := List.mem_map.1 hc
    rw [isWSB_toLower]
    exact h d hd

theorem tcWord_no_space (i : Nat) {w : List Char} (h : ∀ c ∈ w, ¬(c = ' ')) :
    ∀ c ∈ tcWord i w, ¬(c = ' ') := by
  rw [tcWord]
  split
  · cases w with
    | nil => simp [upFirst]
    | cons a r =>
      intro c hc
      rw [upFirst] at hc
      rcases List.mem_cons.1 hc with rfl | hc
      · intro hsp
        exact h a (List.mem_cons_self _ _) ((toUpper_space a).1 hsp)
      · obtain ⟨d, hd, rfl⟩ := List.mem_map.1 hc
        intro hsp
        exact h d (List.mem_cons_of_mem _ hd) ((toLower_space d).1 hsp)
  · intro c hc
    obtain ⟨d, hd, rfl⟩ := List.mem_map.1 hc
    intro hsp
    exact h d hd ((toLower_space d).1 hsp)

theorem mapIdx_forall {P : List Char → Prop} {f : Nat → List Char → List Char}
    (hf : ∀ i w, P w → P (f i w)) :
    ∀ (ws : List (List Char)) (i : Nat), (∀ w ∈ ws, P w) → ∀ w2 ∈ mapIdx' f i ws, P w2 := by
  intro ws
  induction ws with
  | nil => intro i _ w2 h2; simp [mapIdx'] at h2
  | cons w rest ih =>
    intro i hall w2 h2
    rw [mapIdx'] at h2
    rcases List.mem_cons.1 h2 with rfl | h2
    · exact hf i w (hall w (List.mem_cons_self _ _))
    · exact ih (i + 1) (fun x hx => hall x (List.mem_cons_of_mem _ hx)) w2 h2

theorem splitOnChar_ne_nil (sep : Char) : ∀ s : List Char, splitOnChar sep s ≠ [] := by
  intro s
  cases s with
  | nil => simp [splitOnChar]
  | cons c cs =>
    rw [splitOnChar]
    split
    · simp
    · split <;> simp

theorem splitOnChar_no_sep (sep : Char) :
    ∀ s : List Char, ∀ w ∈ splitOnChar sep s, ∀ c ∈ w, ¬(c = sep) := by
  intro s
  induction s with
  | nil =>
    intro w hw
    simp [splitOnChar] at hw
    subst hw
    simp
  | cons c cs ih =>
    intro w hw
    rw [splitOnChar] at hw
    by_cases hc : (c == sep) = true
    · rw [if_pos hc] at hw
      rcases List.mem_cons.1 hw with rfl | hw
      · simp
      · exact ih w hw
    · rw [if_neg hc] at hw
      rcases hsp : splitOnChar sep cs with _ | ⟨w1, ws⟩
      · exact absurd hsp (splitOnChar_ne_nil sep cs)
      · rw [hsp] at hw
        rcases List.mem_cons.1 hw with rfl | hw
        · intro d hd
          rcases List.mem_cons.1 hd with rfl | hd
          · intro h2
            rw [h2] at hc
            simp at hc
          · exact ih w1 (hsp ▸ List.mem_cons_self _ _) d hd
        · exact ih w (hsp ▸ List.mem_cons_of_mem _ hw)

theorem splitOnChar_word {sep : Char} :
    ∀ {w : List Char}, (∀ c ∈ w, ¬(c = sep)) → ∀ r,
      splitOnChar sep (w ++ sep :: r) = w :: splitOnChar sep r := by
  intro w
  induction w with
  | nil =>
    intro _ r
    rw [List.nil_append, splitOnChar, if_pos (by simp)]
  | cons c cs ih =>
    intro h r
    rw [List.cons_append, splitOnChar,
      if_neg (by simp; exact h c (List.mem_cons_self _ _)),
      ih (fun x hx => h x (List.mem_cons_of_mem _ hx)) r]

theorem splitOnChar_self {sep : Char} :
    ∀ {w : List Char}, (∀ c ∈ w, ¬(c = sep)) → splitOnChar sep w = [w] := by
  intro w
  induction w with
  | nil => intro _; rfl
  | cons c cs ih =>
    intro h
    rw [splitOnChar, if_neg (by simp; exact h c (List.mem_cons_self _ _)),
      ih (fun x hx => h x (List.mem_cons_of_mem _ hx))]

theorem intercalate_singleton (w : List Char) : List.intercalate [' '] [w] = w := by
  simp [List.intercalate]

theorem intercalate_cons_cons (w x : List Char) (xs : List (List Char)) :
    List.intercalate [' '] (w :: x :: xs) = w ++ ' ' :: List.intercalate [' '] (x :: xs) := by
  simp [List.intercalate, List.intersperse]

theorem splitOnChar_intercalate :
    ∀ ws : List (List Char), ws ≠ [] → (∀ w ∈ ws, ∀ c ∈ w, ¬(c = ' ')) →
      splitOnChar ' ' (List.intercalate [' '] ws) = ws := by
  intro ws
  induction ws with
  | nil => intro h; exact absurd rfl h
  | cons w rest ih =>
    intro _ hall
    cases rest with
    | nil =>
      rw [intercalate_singleton]
      exact splitOnChar_self (hall w (List.mem_cons_self _ _))
    | cons x xs =>
      rw [intercalate_cons_cons,
        splitOnChar_word (hall w (List.mem_cons_self _ _)),
        ih (by simp) (fun v hv => hall v (List.mem_cons_of_mem _ hv))]

theorem tokensAux_word :
    ∀ {w : List Char}, (∀ c ∈ w, isWSB c = false) → ∀ rest cur,
      tokensAux cur (w ++ rest) = tokensAux (w.reverse ++ cur) rest := by
  intro w
  induction w with
  | nil => intro _ rest cur; simp
  | cons c cs ih =>
    intro h rest cur
    rw [List.cons_append, tokensAux, if_neg (by rw [h c (List.mem_cons_self _ _)]; simp),
      ih (fun x hx => h x (List.mem_cons_of_mem _ hx)) rest (c :: cur)]
    rw [List.reverse_cons, List.append_assoc, List.singleton_append]

theorem tokensAux_wd :
    ∀ (s cur : List Char), (∀ c ∈ cur, isWSB c = false) →
      ∀ w ∈ tokensAux cur s, w ≠ [] ∧ ∀ c ∈ w, isWSB c = false := by
  intro s
  induction s with
  | nil =>
    intro cur hcur w hw
    rw [tokensAux] at hw
    split at hw
    · simp at hw
    · rename_i hne
      simp at hw
      subst hw
      constructor
      · simp
        intro h2
        rw [h2] at hne
        simp at hne
      · intro c hc
        exact hcur c (List.mem_reverse.1 hc)
  | cons c cs ih =>
    intro cur hcur w hw
    rw [tokensAux] at hw
    by_cases hc : isWSB c = true
    · rw [if_pos hc] at hw
      split at hw
      · exact ih [] (by simp) w hw
      · rename_i hne
        rcases List.mem_cons.1 hw with rfl | hw
        · constructor
          · simp
            intro h2
            rw [h2] at hne
            simp at hne
          · intro d hd
            exact hcur d (List.mem_reverse.1 hd)
        · exact ih [] (by simp) w hw
    · rw [if_neg hc] at hw
      refine ih (c :: cur) ?_ w hw
      intro d hd
      rcases List.mem_cons.1 hd with rfl | hd
      · simpa using hc
      · exact hcur d hd

theorem tokens_intercalate :
    ∀ ws : List (List Char), (∀ w ∈ ws, w ≠ [] ∧ ∀ c ∈ w, isWSB c = false) →
      tokens (List.intercalate [' '] ws) = ws := by
  intro ws
  induction ws with
  | nil => intro _; rfl
  | cons w rest ih =>
    intro hall
    obtain ⟨hne, hfree⟩ := hall w (List.mem_cons_self _ _)
    cases rest with
    | nil =>
      have hw := tokensAux_word hfree [] []
      rw [List.append_nil, List.append_nil] at hw
      rw [intercalate_singleton, tokens, hw, tokensAux]
      rw [if_neg (by simp [hne])]
      rw [List.reverse_reverse]
    | cons x xs =>
      have hw := tokensAux_word hfree (' ' :: List.intercalate [' '] (x :: xs)) []
      rw [List.append_nil] at hw
      rw [intercalate_cons_cons, tokens, hw, tokensAux, if_pos (by decide)]
      rw [if_neg (by simp [hne])]
      rw [List.reverse_reverse]
      exact congrArg _ (ih (fun v hv => hall v (List.mem_cons_of_mem _ hv)))


theorem tokens_wd (s : List Char) :
    ∀ w ∈ tokens s, w ≠ [] ∧ ∀ c ∈ w, isWSB c = false := by
  rw [tokens]
  exact tokensAux_wd s [] (by simp)

theorem collapseWS_idem (s : List Char) : collapseWS (collapseWS s) = collapseWS s := by
  simp only [collapseWS]
  rw [tokens_intercalate (tokens s) (tokens_wd s)]

theorem mapIdx_ne_nil {f : Nat → List Char → List Char} {i : Nat}
    {ws : List (List Char)} (h : ws ≠ []) : mapIdx' f i ws ≠ [] := by
  cases ws with
  | nil => exact absurd rfl h
  | cons w rest => simp [mapIdx']

theorem splitSp_toTitleCase (s : List Char) :
    splitSp (toTitleCase s) = mapIdx' tcWord 0 (splitSp s) := by
  rw [toTitleCase, splitSp]
  exact splitOnChar_intercalate _ (mapIdx_ne_nil (splitOnChar_ne_nil ' ' s))
    (mapIdx_forall (fun i w h => tcWord_no_space i h) _ 0 (splitOnChar_no_sep ' ' s))

theorem toTitleCase_idem (s : List Char) : toTitleCase (toTitleCase s) = toTitleCase s := by
  have h : toTitleCase (toTitleCase s)
      = List.intercalate [' '] (mapIdx' tcWord 0 (splitSp (toTitleCase s))) := rfl
  rw [h, splitSp_toTitleCase, mapIdx_tcWord_idem]
  rfl

theorem maybeTitleCase_toTitleCase (y : List Char) :
    maybeTitleCase (toTitleCase y) = toTitleCase y := by
  rw [maybeTitleCase]
  split
  · exact toTitleCase_idem y
  · rfl

theorem maybeTitleCase_idem (y : List Char) :
    maybeTitleCase (maybeTitleCase y) = maybeTitleCase y := by
  by_cases h : y = strLow y ∨ y = strUp y
  · rw [show maybeTitleCase y = toTitleCase y from by rw [maybeTitleCase, if_pos h]]
    exact maybeTitleCase_toTitleCase y
  · have h1 : maybeTitleCase y = y := by rw [maybeTitleCase, if_neg h]
    rw [h1, h1]

theorem tcWord_wd (i : Nat) (w : List Char)
    (h : w ≠ [] ∧ ∀ c ∈ w, isWSB c = false) :
    tcWord i w ≠ [] ∧ ∀ c ∈ tcWord i w, isWSB c = false := by
  obtain ⟨hne, hfree⟩ := h
  refine ⟨?_, tcWord_wsFree i hfree⟩
  intro h0
  have hl := tcWord_length i w
  rw [h0] at hl
  exact hne (List.length_eq_zero.1 hl.symm)

theorem collapseWS_toTitleCase (s : List Char) :
    collapseWS (toTitleCase (collapseWS s)) = toTitleCase (collapseWS s) := by
  cases htk : tokens s with
  | nil =>
    have h0 : collapseWS s = [] := by rw [collapseWS, htk]; rfl
    rw [h0]
    rfl
  | cons w ws =>
    have hsplit : splitSp (collapseWS s) = tokens s := by
      rw [collapseWS, splitSp]
      exact splitOnChar_intercalate (tokens s) (by rw [htk]; simp)
        (fun v hv c hc => not_space_of_not_wsb ((tokens_wd s v hv).2 c hc))
    conv_lhs => rw [toTitleCase, hsplit]
    rw [collapseWS, tokens_intercalate _ (mapIdx_forall tcWord_wd _ 0 (tokens_wd s))]
    conv_rhs => rw [toTitleCase, hsplit]

theorem collapseWS_cleanTitle (t : List Char) :
    collapseWS (cleanTitleL t) = cleanTitleL t := by
  rw [cleanTitleL, maybeTitleCase]
  split
  · exact collapseWS_toTitleCase (stripAll TITLE_CLEANUP_PATTERNS t)
  · exact collapseWS_idem _

theorem maybeTitleCase_cleanTitle (u : List Char) :
    maybeTitleCase (cleanTitleL u) = cleanTitleL u := by
  rw [cleanTitleL]
  exact maybeTitleCase_idem _

theorem stripFirst_no_match {r : RE} {s : List Char} (h : reTest r s = false) :
    stripFirst r s = s := by
  cases hm : matchFirst r s with
  | none => simp only [stripFirst, hm]
  | some f =>
    rw [reTest, hm] at h
    simp at h

theorem stripAll_no_match {s : List Char} :
    ∀ {pats : List RE}, (∀ p ∈ pats, reTest p s = false) → stripAll pats s = s := by
  intro pats
  induction pats with
  | nil => intro _; rfl
  | cons p ps ih =>
    intro h
    rw [stripAll, List.foldl_cons, stripFirst_no_match (h p (List.mem_cons_self _ _))]
    exact ih (fun q hq => h q (List.mem_cons_of_mem _ hq))


theorem cleanTitle_data (t : String) : (cleanTitle t).data = cleanTitleL t.data := by
  rw [cleanTitle]

theorem cleanTitleL_idem_of_no_match {u : List Char}
    (h : ∀ p ∈ TITLE_CLEANUP_PATTERNS, reTest p (cleanTitleL u) = false) :
    cleanTitleL (cleanTitleL u) = cleanTitleL u :=
  calc cleanTitleL (cleanTitleL u)
      = maybeTitleCase (collapseWS (stripAll TITLE_CLEANUP_PATTERNS (cleanTitleL u))) :=
        rfl
    _ = maybeTitleCase (collapseWS (cleanTitleL u)) := by rw [stripAll_no_match h]
    _ = maybeTitleCase (cleanTitleL u) := by rw [collapseWS_cleanTitle]
    _ = cleanTitleL u := maybeTitleCase_cleanTitle u

set_option maxRecDepth 16384 in
/-- C8 counterexample: `cleanTitle` is not idempotent. On the title
"story manga manga" the first pass strips one trailing " manga" and
title-cases the lowercase remainder to "Story Manga"; the second pass
strips the newly exposed trailing " Manga", giving "Story". -/
theorem cleanTitle_not_idempotent :
    cleanTitle (cleanTitle "story manga manga") ≠ cleanTitle "story manga manga" ∧
    cleanTitle "story manga manga" = "Story Manga" ∧
    cleanTitle (cleanTitle "story manga manga") = "Story" :=
  ⟨by decide, by decide, by decide⟩

/-- C8 (amended): `cleanTitle` is idempotent on every title whose cleaned
form is not matched by any cleanup pattern; in general a pattern can match
the output of a first pass (a stripped suffix can expose another strippable
suffix), and on such titles a second pass strips further. The whitespace
collapse and the conditional title-casing are idempotent unconditionally. -/
theorem cleanTitle_idem_of_no_match (t : String)
    (h : ∀ p ∈ TITLE_CLEANUP_PATTERNS, reTest p (cleanTitle t).data = false) :
    cleanTitle (cleanTitle t) = cleanTitle t := by
  rw [cleanTitle_data t] at h
  have hL := cleanTitleL_idem_of_no_match h
  have h1 : cleanTitle (cleanTitle t) = ⟨cleanTitleL (cleanTitle t).data⟩ := by
    rw [cleanTitle]
  rw [h1, cleanTitle_data t, hL, cleanTitle]

set_option maxRecDepth 16384 in
set_option maxHeartbeats 8000000 in
theorem cleanTitle_idem_of_no_match_witness :
    (∀ p ∈ TITLE_CLEANUP_PATTERNS, reTest p (cleanTitle "The Great Adventure").data = false) ∧
    cleanTitle (cleanTitle "The Great Adventure") = cleanTitle "The Great Adventure" :=
  ⟨by decide, cleanTitle_idem_of_no_match "The Great Adventure" (by decide)⟩

end Waypoint
